import Mathlib

/-!
# Verification of the gemma.cpp weight-compression / MatVec core

A shallow embedding of `compression/compress-inl.h`, `ops/matvec-inl.h` and the
NUQ components exercised by `compression/nuq_test.cc`, together with proofs of
the specified properties.

Modelling conventions:
* Machine floating-point values are modelled by exact rationals (`ℚ`).  All
  claims proved here are about which elements are read/written and about the
  algebraic shape of the results (sums of products, tiling decompositions,
  lane counts); none depends on rounding of f32 arithmetic.  Where a rounding
  conversion occurs in the code (f32 → BF16 demotion), it is kept as an
  explicit abstract function parameter.
* A SIMD vector is a function `Nat → ℚ` together with an ambient lane count
  `NF` (`hn::Lanes(df)`); loops are folds over `List.range` with the iteration
  count computed from the C++ loop bounds (stated in comments at each loop).
* Output buffers whose written-lane set matters are `Nat → Option ℚ`
  (`none` = never written); plain accumulator arrays are `Nat → ℚ`.
* Fallible operations (those guarded by `BoundsCheck`, which aborts) return
  `Option`; `none` models the abort.
-/

namespace Gemma

/-! ## Generic helpers -/

/-- Sum of pointwise products of `num` elements: models the exact value of
`Dot(mat, mofs, vec + vofs, num)`.  Modelled from the spec: the `Dot` kernel
itself lives in `ops/dot-inl.h` (not under `src/`); per spec §2/§4.6–4.7 it
computes the dot product of `num` decompressed matrix elements with `vec`. -/
def dotSlice (mat : Nat → ℚ) (mofs : Nat) (vec : Nat → ℚ) (vofs num : Nat) : ℚ :=
  ∑ j in Finset.range num, mat (mofs + j) * vec (vofs + j)

theorem dotSlice_add (mat : Nat → ℚ) (mofs : Nat) (vec : Nat → ℚ) (vofs a b : Nat) :
    dotSlice mat mofs vec vofs (a + b) =
      dotSlice mat mofs vec vofs a + dotSlice mat (mofs + a) vec (vofs + a) b := by
  unfold dotSlice
  rw [Finset.sum_range_add]
  congr 1
  refine Finset.sum_congr rfl ?_
  intro j _
  ring_nf

/-! ## C8: `RowsPerStrip` (ops/matvec-inl.h lines 76–85) -/

/-- `RowsPerStrip<kOuter>()`:
`kOuter < 128 ? kLanes : HWY_MAX(kLanes, 1ULL << hwy::FloorLog2(kOuter / 128))`.
`hwy::FloorLog2 n = ⌊log₂ n⌋ = Nat.log2 n` (the argument is ≥ 1 here). -/
def RowsPerStrip (lanes kOuter : Nat) : Nat :=
  if kOuter < 128 then lanes else max lanes (2 ^ Nat.log2 (kOuter / 128))

/-- C8: the rows-per-strip equals `lanes` when `kOuter < 128`, and otherwise
`max lanes (2 ^ ⌊log₂ (kOuter / 128)⌋)`, where `2 ^ ⌊log₂ (kOuter / 128)⌋` is
the largest power of two not exceeding `kOuter / 128`. -/
theorem rowsPerStrip_spec (lanes kOuter : Nat) :
    (kOuter < 128 → RowsPerStrip lanes kOuter = lanes) ∧
    (128 ≤ kOuter →
      RowsPerStrip lanes kOuter = max lanes (2 ^ Nat.log2 (kOuter / 128)) ∧
      2 ^ Nat.log2 (kOuter / 128) ≤ kOuter / 128 ∧
      (∀ p : Nat, 2 ^ p ≤ kOuter / 128 → 2 ^ p ≤ 2 ^ Nat.log2 (kOuter / 128))) := by
  constructor
  · intro h
    simp [RowsPerStrip, h]
  · intro h
    have hlt : ¬ kOuter < 128 := Nat.not_lt.mpr h
    have hq : kOuter / 128 ≠ 0 := by
      have : 1 ≤ kOuter / 128 := (Nat.one_le_div_iff (by norm_num)).mpr h
      omega
    refine ⟨by simp [RowsPerStrip, hlt], ?_, ?_⟩
    · rw [Nat.log2_eq_log_two]
      exact Nat.pow_log_le_self 2 hq
    · intro p hp
      have hple : p ≤ Nat.log2 (kOuter / 128) := by
        rw [Nat.log2_eq_log_two]
        exact (Nat.pow_le_iff_le_log (by norm_num) hq).mp hp
      exact Nat.pow_le_pow_right (by norm_num) hple

/-- Witness for C8 at `lanes = 4`, `kOuter = 100` and `kOuter = 640`
(`640 / 128 = 5`, `⌊log₂ 5⌋ = 2`). -/
theorem rowsPerStrip_spec_witness :
    RowsPerStrip 4 100 = 4 ∧
    (RowsPerStrip 4 640 = max 4 (2 ^ Nat.log2 (640 / 128)) ∧
      2 ^ Nat.log2 (640 / 128) ≤ 640 / 128 ∧
      (∀ p : Nat, 2 ^ p ≤ 640 / 128 → 2 ^ p ≤ 2 ^ Nat.log2 (640 / 128))) :=
  ⟨(rowsPerStrip_spec 4 100).1 (by decide), (rowsPerStrip_spec 4 640).2 (by decide)⟩

/-! ## MatVec engine (ops/matvec-inl.h)

The per-row loops write `out[idx_row]` for `idx_row ∈ [0, num_rows)`; the code
receives the pointer `out + r0`, which we model by the absolute base index
`outBase` into a global output function. -/

/-- A loop `for idx_row in [0, n)` that stores `val idx_row (o[outBase+idx_row])`
into `out[outBase + idx_row]` touches exactly `[outBase, outBase + n)`. -/
theorem foldl_update_rows (val : Nat → ℚ → ℚ) (outBase n : Nat) (out : Nat → ℚ) :
    ∀ k, (List.range n).foldl
        (fun o i => Function.update o (outBase + i) (val i (o (outBase + i)))) out k =
      if outBase ≤ k ∧ k < outBase + n then val (k - outBase) (out k) else out k := by
  induction n with
  | zero =>
    intro k
    simp only [List.range_zero, List.foldl_nil]
    rw [if_neg (by omega)]
  | succ n ih =>
    intro k
    rw [List.range_succ, List.foldl_append, List.foldl_cons, List.foldl_nil]
    by_cases hk : k = outBase + n
    · subst hk
      rw [Function.update_same, ih]
      rw [if_neg (by omega), if_pos (by omega)]
      congr 1
      omega
    · rw [Function.update_noteq hk, ih]
      by_cases hin : outBase ≤ k ∧ k < outBase + n
      · rw [if_pos hin, if_pos (by omega)]
      · rw [if_neg hin, if_neg (by omega)]

/-- `detail::AccumulatePartialDotProducts` (matvec-inl.h lines 92–101):
for each `idx_row ∈ [0, num_rows)`,
`out[idx_row] += Dot(mat, mat_ofs + (r0+idx_row)*mat_stride + c0, vec + c0, num_cols)`. -/
def AccumulatePartialDotProducts (mat : Nat → ℚ) (mat_ofs mat_stride r0 c0 num_rows num_cols : Nat)
    (vec : Nat → ℚ) (outBase : Nat) (out : Nat → ℚ) : Nat → ℚ :=
  (List.range num_rows).foldl
    (fun o idx_row =>
      Function.update o (outBase + idx_row)
        (o (outBase + idx_row) +
          dotSlice mat (mat_ofs + (r0 + idx_row) * mat_stride + c0) vec c0 num_cols))
    out

theorem accumulate_apply (mat : Nat → ℚ) (mat_ofs mat_stride r0 c0 num_rows num_cols : Nat)
    (vec : Nat → ℚ) (outBase : Nat) (out : Nat → ℚ) (k : Nat) :
    AccumulatePartialDotProducts mat mat_ofs mat_stride r0 c0 num_rows num_cols vec outBase out k =
      if outBase ≤ k ∧ k < outBase + num_rows then
        out k + dotSlice mat (mat_ofs + (r0 + (k - outBase)) * mat_stride + c0) vec c0 num_cols
      else out k :=
  foldl_update_rows
    (fun i x => x + dotSlice mat (mat_ofs + (r0 + i) * mat_stride + c0) vec c0 num_cols)
    outBase num_rows out k

/-- `detail::SetFirstPartialDotProducts<kInit>` (matvec-inl.h lines 106–123):
`out[idx_row] = (kInit ? init[idx_row + r0] + Dot(...) : Dot(...))`. -/
def SetFirstPartialDotProducts (kInit : Bool) (mat : Nat → ℚ)
    (mat_ofs mat_stride r0 c0 num_rows num_cols : Nat)
    (vec init : Nat → ℚ) (outBase : Nat) (out : Nat → ℚ) : Nat → ℚ :=
  (List.range num_rows).foldl
    (fun o idx_row =>
      Function.update o (outBase + idx_row)
        (if kInit then
          init (idx_row + r0) +
            dotSlice mat (mat_ofs + (r0 + idx_row) * mat_stride + c0) vec c0 num_cols
        else dotSlice mat (mat_ofs + (r0 + idx_row) * mat_stride + c0) vec c0 num_cols))
    out

theorem setFirst_apply (kInit : Bool) (mat : Nat → ℚ)
    (mat_ofs mat_stride r0 c0 num_rows num_cols : Nat)
    (vec init : Nat → ℚ) (outBase : Nat) (out : Nat → ℚ) (k : Nat) :
    SetFirstPartialDotProducts kInit mat mat_ofs mat_stride r0 c0 num_rows num_cols
        vec init outBase out k =
      if outBase ≤ k ∧ k < outBase + num_rows then
        (if kInit then
          init (k - outBase + r0) +
            dotSlice mat (mat_ofs + (r0 + (k - outBase)) * mat_stride + c0) vec c0 num_cols
        else dotSlice mat (mat_ofs + (r0 + (k - outBase)) * mat_stride + c0) vec c0 num_cols)
      else out k :=
  foldl_update_rows
    (fun i _ =>
      if kInit then
        init (i + r0) + dotSlice mat (mat_ofs + (r0 + i) * mat_stride + c0) vec c0 num_cols
      else dotSlice mat (mat_ofs + (r0 + i) * mat_stride + c0) vec c0 num_cols)
    outBase num_rows out k

/-- `MaxCols()` (matvec-inl.h lines 71–74). -/
def MaxCols : Nat := 2048

/-- The middle column-tile loop of `FullDotProductsForStrip`, generalized over
the tile width `C`: accumulate tiles at `c0 = (t+1)*C` for `t ∈ [0, m)`. -/
theorem colsFold_apply (mat : Nat → ℚ) (mat_ofs mat_stride r0 C num_rows m : Nat)
    (vec : Nat → ℚ) (outBase : Nat) (out : Nat → ℚ) :
    ∀ k, (List.range m).foldl
        (fun o t => AccumulatePartialDotProducts mat mat_ofs mat_stride r0 ((t + 1) * C)
            num_rows C vec outBase o) out k =
      if outBase ≤ k ∧ k < outBase + num_rows then
        out k + dotSlice mat (mat_ofs + (r0 + (k - outBase)) * mat_stride + C) vec C (m * C)
      else out k := by
  induction m with
  | zero =>
    intro k
    by_cases hin : outBase ≤ k ∧ k < outBase + num_rows <;>
      simp [hin, dotSlice]
  | succ m ih =>
    intro k
    rw [List.range_succ, List.foldl_append, List.foldl_cons, List.foldl_nil,
      accumulate_apply, ih k]
    by_cases hin : outBase ≤ k ∧ k < outBase + num_rows
    · simp only [if_pos hin]
      rw [show (m + 1) * C = m * C + C from by ring]
      rw [dotSlice_add mat (mat_ofs + (r0 + (k - outBase)) * mat_stride + C) vec C (m * C) C]
      rw [show mat_ofs + (r0 + (k - outBase)) * mat_stride + C + m * C =
            mat_ofs + (r0 + (k - outBase)) * mat_stride + (m * C + C) from by ring]
      rw [show C + m * C = m * C + C from by ring]
      ring
    · simp only [if_neg hin]

/-- `detail::FullDotProductsForStrip<kAdd>` (matvec-inl.h lines 129–158).
The C++ loop `for (c0 = MaxCols; c0 <= mat_stride - MaxCols; c0 += MaxCols)`
(reached only when `MaxCols ≤ mat_stride`) runs exactly
`mat_stride / MaxCols - 1` iterations, with `c0 = (t+1)*MaxCols` at iteration
`t`, leaving `c0 = (mat_stride / MaxCols) * MaxCols` for the final-cols test. -/
def FullDotProductsForStrip (kAdd : Bool) (mat : Nat → ℚ) (mat_ofs mat_stride r0 num_rows : Nat)
    (vec add : Nat → ℚ) (outBase : Nat) (out : Nat → ℚ) : Nat → ℚ :=
  if mat_stride < MaxCols then
    SetFirstPartialDotProducts kAdd mat mat_ofs mat_stride r0 0 num_rows mat_stride
      vec add outBase out
  else
    let out1 := SetFirstPartialDotProducts kAdd mat mat_ofs mat_stride r0 0 num_rows MaxCols
      vec add outBase out
    let out2 := (List.range (mat_stride / MaxCols - 1)).foldl
      (fun o t => AccumulatePartialDotProducts mat mat_ofs mat_stride r0 ((t + 1) * MaxCols)
          num_rows MaxCols vec outBase o) out1
    let c0 := (mat_stride / MaxCols) * MaxCols
    if c0 < mat_stride then
      AccumulatePartialDotProducts mat mat_ofs mat_stride r0 c0 num_rows (mat_stride - c0)
        vec outBase out2
    else out2

/-- Rows `[outBase, outBase + num_rows)` of the strip receive the full dot
product of their matrix row with `vec` (plus `add` when `kAdd`); all other
entries of `out` are untouched. -/
theorem fullDot_apply (kAdd : Bool) (mat : Nat → ℚ) (mat_ofs mat_stride r0 num_rows : Nat)
    (vec add : Nat → ℚ) (outBase : Nat) (out : Nat → ℚ) (k : Nat) :
    FullDotProductsForStrip kAdd mat mat_ofs mat_stride r0 num_rows vec add outBase out k =
      if outBase ≤ k ∧ k < outBase + num_rows then
        (if kAdd then
          add (k - outBase + r0) +
            dotSlice mat (mat_ofs + (r0 + (k - outBase)) * mat_stride) vec 0 mat_stride
        else dotSlice mat (mat_ofs + (r0 + (k - outBase)) * mat_stride) vec 0 mat_stride)
      else out k := by
  simp only [FullDotProductsForStrip]
  by_cases hs : mat_stride < MaxCols
  · rw [if_pos hs, setFirst_apply]
    by_cases hin : outBase ≤ k ∧ k < outBase + num_rows
    · simp only [if_pos hin, Nat.add_zero]
    · simp only [if_neg hin]
  · rw [if_neg hs]
    have hC : 0 < MaxCols := by norm_num [MaxCols]
    have hq1 : 1 ≤ mat_stride / MaxCols :=
      (Nat.one_le_div_iff hC).mpr (Nat.le_of_not_lt hs)
    have hqle : (mat_stride / MaxCols) * MaxCols ≤ mat_stride := Nat.div_mul_le_self _ _
    by_cases hin : outBase ≤ k ∧ k < outBase + num_rows
    · -- value after SetFirst + middle tiles: columns [0, (q)*MaxCols)
      have hmid : ∀ o : Nat → ℚ,
          (List.range (mat_stride / MaxCols - 1)).foldl
            (fun o t => AccumulatePartialDotProducts mat mat_ofs mat_stride r0
                ((t + 1) * MaxCols) num_rows MaxCols vec outBase o)
            (SetFirstPartialDotProducts kAdd mat mat_ofs mat_stride r0 0 num_rows MaxCols
              vec add outBase o) k =
          (if kAdd then
            add (k - outBase + r0) +
              dotSlice mat (mat_ofs + (r0 + (k - outBase)) * mat_stride) vec 0
                ((mat_stride / MaxCols) * MaxCols)
          else
            dotSlice mat (mat_ofs + (r0 + (k - outBase)) * mat_stride) vec 0
              ((mat_stride / MaxCols) * MaxCols)) := by
        intro o
        rw [colsFold_apply, if_pos hin, setFirst_apply, if_pos hin]
        have hsplit :
            dotSlice mat (mat_ofs + (r0 + (k - outBase)) * mat_stride) vec 0
                ((mat_stride / MaxCols) * MaxCols) =
              dotSlice mat (mat_ofs + (r0 + (k - outBase)) * mat_stride) vec 0 MaxCols +
                dotSlice mat (mat_ofs + (r0 + (k - outBase)) * mat_stride + MaxCols) vec MaxCols
                  ((mat_stride / MaxCols - 1) * MaxCols) := by
          have h1 : MaxCols + (mat_stride / MaxCols - 1) * MaxCols =
              (mat_stride / MaxCols) * MaxCols := by
            obtain ⟨q, hq⟩ := Nat.exists_eq_add_of_le hq1
            rw [hq, Nat.add_sub_cancel_left]
            ring
          have h2 := dotSlice_add mat (mat_ofs + (r0 + (k - outBase)) * mat_stride) vec 0
            MaxCols ((mat_stride / MaxCols - 1) * MaxCols)
          rw [h1, Nat.zero_add] at h2
          exact h2
        rw [hsplit]
        cases kAdd <;> simp only [if_true, if_false, Bool.false_eq_true] <;> ring
      by_cases hfin : (mat_stride / MaxCols) * MaxCols < mat_stride
      · rw [if_pos hfin, accumulate_apply, if_pos hin, hmid, if_pos hin]
        have hsplit2 :
            dotSlice mat (mat_ofs + (r0 + (k - outBase)) * mat_stride) vec 0 mat_stride =
              dotSlice mat (mat_ofs + (r0 + (k - outBase)) * mat_stride) vec 0
                  ((mat_stride / MaxCols) * MaxCols) +
                dotSlice mat
                  (mat_ofs + (r0 + (k - outBase)) * mat_stride +
                    (mat_stride / MaxCols) * MaxCols)
                  vec ((mat_stride / MaxCols) * MaxCols)
                  (mat_stride - (mat_stride / MaxCols) * MaxCols) := by
          have h2 := dotSlice_add mat (mat_ofs + (r0 + (k - outBase)) * mat_stride) vec 0
            ((mat_stride / MaxCols) * MaxCols) (mat_stride - (mat_stride / MaxCols) * MaxCols)
          rw [show (mat_stride / MaxCols) * MaxCols +
                (mat_stride - (mat_stride / MaxCols) * MaxCols) = mat_stride from by omega,
            Nat.zero_add] at h2
          exact h2
        rw [hsplit2]
        cases kAdd <;> simp only [if_true, if_false, Bool.false_eq_true] <;> ring
      · rw [if_neg hfin, hmid, if_pos hin]
        have : (mat_stride / MaxCols) * MaxCols = mat_stride := by omega
        rw [this]
    · -- out-of-range entries are untouched by every stage
      by_cases hfin : (mat_stride / MaxCols) * MaxCols < mat_stride
      · rw [if_pos hfin, accumulate_apply, if_neg hin, colsFold_apply, if_neg hin,
          setFirst_apply, if_neg hin, if_neg hin]
      · rw [if_neg hfin, colsFold_apply, if_neg hin, setFirst_apply, if_neg hin, if_neg hin]

/-- `MatVecT<kAdd, kOuter, kInner>` (matvec-inl.h lines 164–193).  The pool
tasks write disjoint strips `[strip*kRowsPerStrip, (strip+1)*kRowsPerStrip)`,
so the fork-join `pool.Run` is modelled by a sequential fold over strips;
the trailing `kOuter mod kRowsPerStrip` rows are handled after the join. -/
def MatVecT (kAdd : Bool) (kOuter kInner lanes : Nat) (mat : Nat → ℚ) (mat_ofs : Nat)
    (vec add : Nat → ℚ) (out : Nat → ℚ) : Nat → ℚ :=
  let kRowsPerStrip := RowsPerStrip lanes kOuter
  let kNumStrips := kOuter / kRowsPerStrip
  let out1 := (List.range kNumStrips).foldl
    (fun o strip => FullDotProductsForStrip kAdd mat mat_ofs kInner (strip * kRowsPerStrip)
        kRowsPerStrip vec add (strip * kRowsPerStrip) o) out
  let r0 := kNumStrips * kRowsPerStrip
  if r0 < kOuter then
    FullDotProductsForStrip kAdd mat mat_ofs kInner r0 (kOuter - r0) vec add r0 out1
  else out1

/-- `MatVecAdd` (matvec-inl.h lines 196–204): `MatVecT</*kAdd=*/true>`. -/
def MatVecAdd (kOuter kInner lanes : Nat) (mat : Nat → ℚ) (mat_ofs : Nat)
    (vec add : Nat → ℚ) (out : Nat → ℚ) : Nat → ℚ :=
  MatVecT true kOuter kInner lanes mat mat_ofs vec add out

/-- `MatVec` (matvec-inl.h lines 207–214): `MatVecT</*kAdd=*/false>` with a
null `add` that is never read (modelled as the zero function). -/
def MatVec (kOuter kInner lanes : Nat) (mat : Nat → ℚ) (mat_ofs : Nat)
    (vec : Nat → ℚ) (out : Nat → ℚ) : Nat → ℚ :=
  MatVecT false kOuter kInner lanes mat mat_ofs vec (fun _ => 0) out

/-- The strip fold writes rows `[0, ns*rps)` with their final values. -/
theorem stripsFold_apply (kAdd : Bool) (mat : Nat → ℚ) (mat_ofs kInner rps ns : Nat)
    (vec add : Nat → ℚ) (out : Nat → ℚ) :
    ∀ k, (List.range ns).foldl
        (fun o strip => FullDotProductsForStrip kAdd mat mat_ofs kInner (strip * rps)
            rps vec add (strip * rps) o) out k =
      if k < ns * rps then
        (if kAdd then
          add k + dotSlice mat (mat_ofs + k * kInner) vec 0 kInner
        else dotSlice mat (mat_ofs + k * kInner) vec 0 kInner)
      else out k := by
  induction ns with
  | zero => intro k; simp
  | succ ns ih =>
    intro k
    have hns1 : (ns + 1) * rps = ns * rps + rps := by ring
    rw [List.range_succ, List.foldl_append, List.foldl_cons, List.foldl_nil, fullDot_apply,
      ih k, hns1]
    by_cases hin : ns * rps ≤ k ∧ k < ns * rps + rps
    · rw [if_pos hin]
      have hk1 : k - ns * rps + ns * rps = k := by omega
      have hk2 : ns * rps + (k - ns * rps) = k := by omega
      rw [hk1, hk2, if_pos (show k < ns * rps + rps by omega)]
    · rw [if_neg hin]
      by_cases hlt : k < ns * rps
      · rw [if_pos hlt, if_pos (show k < ns * rps + rps by omega)]
      · rw [if_neg hlt, if_neg (show ¬ k < ns * rps + rps by omega)]

/-- C1: `MatVecAdd` produces `out[r] = add[r] + Σ_{c<kInner} mat[r,c]·vec[c]`
and `MatVec` the same without the bias, for every row `r ∈ [0, kOuter)` —
including the trailing `kOuter mod rowsPerStrip` rows handled after the pool
join.  Arithmetic is modelled exactly (ℚ); the `Dot` kernel (`ops/dot-inl.h`,
not under `src/`) is modelled from the spec as the exact dot product. -/
theorem matvec_row_correct (kOuter kInner lanes : Nat) (mat : Nat → ℚ) (mat_ofs : Nat)
    (vec add out0 out1 : Nat → ℚ) (r : Nat) (hr : r < kOuter) :
    MatVecAdd kOuter kInner lanes mat mat_ofs vec add out0 r =
      add r + ∑ c in Finset.range kInner, mat (mat_ofs + r * kInner + c) * vec c ∧
    MatVec kOuter kInner lanes mat mat_ofs vec out1 r =
      ∑ c in Finset.range kInner, mat (mat_ofs + r * kInner + c) * vec c := by
  have main : ∀ (kAdd : Bool) (add out : Nat → ℚ),
      MatVecT kAdd kOuter kInner lanes mat mat_ofs vec add out r =
        (if kAdd then
          add r + dotSlice mat (mat_ofs + r * kInner) vec 0 kInner
        else dotSlice mat (mat_ofs + r * kInner) vec 0 kInner) := by
    intro kAdd add out
    simp only [MatVecT]
    set rps := RowsPerStrip lanes kOuter with hrps
    set ns := kOuter / rps with hns
    have hle : ns * rps ≤ kOuter := by
      rw [hns, Nat.mul_comm]
      exact Nat.mul_div_le kOuter rps
    by_cases hrem : ns * rps < kOuter
    · rw [if_pos hrem, fullDot_apply]
      by_cases hk : ns * rps ≤ r
      · rw [if_pos (by omega)]
        have h1 : r - ns * rps + ns * rps = r := by omega
        have h2 : ns * rps + (r - ns * rps) = r := by omega
        rw [h1, h2]
      · rw [if_neg (by omega), stripsFold_apply, if_pos (by omega)]
    · rw [if_neg hrem, stripsFold_apply, if_pos (by omega)]
  have hdot : dotSlice mat (mat_ofs + r * kInner) vec 0 kInner =
      ∑ c in Finset.range kInner, mat (mat_ofs + r * kInner + c) * vec c := by
    unfold dotSlice
    refine Finset.sum_congr rfl ?_
    intro c _
    rw [Nat.zero_add]
  constructor
  · rw [MatVecAdd, main true add out0, if_pos rfl, hdot]
  · rw [MatVec, main false (fun _ => 0) out1]
    simp only [Bool.false_eq_true, if_false]
    exact hdot

/-- Witness for C1: `kOuter = 5`, `kInner = 3`, `lanes = 4`, so the single
strip covers rows 0–3 and row 4 is a trailing remainder row. -/
theorem matvec_row_correct_witness :
    (4 : Nat) < 5 ∧
    (MatVecAdd 5 3 4 (fun i => (i : ℚ)) 0 (fun c => (c : ℚ) + 1) (fun r => 100 * (r : ℚ))
        (fun _ => 0) 4 =
      100 * (4 : ℚ) + ∑ c in Finset.range 3, ((0 + 4 * 3 + c : Nat) : ℚ) * ((c : ℚ) + 1) ∧
    MatVec 5 3 4 (fun i => (i : ℚ)) 0 (fun c => (c : ℚ) + 1) (fun _ => 0) 4 =
      ∑ c in Finset.range 3, ((0 + 4 * 3 + c : Nat) : ℚ) * ((c : ℚ) + 1)) :=
  ⟨by decide,
    matvec_row_correct 5 3 4 (fun i => (i : ℚ)) 0 (fun c => (c : ℚ) + 1)
      (fun r => 100 * (r : ℚ)) (fun _ => 0) (fun _ => 0) 4 (by decide)⟩

/-- `TwoMatVecT<kAdd, kOuter, kInner>` (matvec-inl.h lines 217–254): each pool
task runs `FullDotProductsForStrip` on the same strip of `mat0` (into `out0`)
and of `mat1` (into `out1`); the remainder rows are handled after the join. -/
def TwoMatVecT (kAdd : Bool) (kOuter kInner lanes : Nat) (mat0 mat1 : Nat → ℚ) (mat_ofs : Nat)
    (vec add0 add1 : Nat → ℚ) (out0 out1 : Nat → ℚ) : (Nat → ℚ) × (Nat → ℚ) :=
  let kRowsPerStrip := RowsPerStrip lanes kOuter
  let kNumStrips := kOuter / kRowsPerStrip
  let p := (List.range kNumStrips).foldl
    (fun p strip =>
      (FullDotProductsForStrip kAdd mat0 mat_ofs kInner (strip * kRowsPerStrip)
          kRowsPerStrip vec add0 (strip * kRowsPerStrip) p.1,
       FullDotProductsForStrip kAdd mat1 mat_ofs kInner (strip * kRowsPerStrip)
          kRowsPerStrip vec add1 (strip * kRowsPerStrip) p.2))
    (out0, out1)
  let r0 := kNumStrips * kRowsPerStrip
  if r0 < kOuter then
    (FullDotProductsForStrip kAdd mat0 mat_ofs kInner r0 (kOuter - r0) vec add0 r0 p.1,
     FullDotProductsForStrip kAdd mat1 mat_ofs kInner r0 (kOuter - r0) vec add1 r0 p.2)
  else p

/-- `TwoMatVecAdd` (matvec-inl.h lines 257–266). -/
def TwoMatVecAdd (kOuter kInner lanes : Nat) (mat0 mat1 : Nat → ℚ) (mat_ofs : Nat)
    (vec add0 add1 : Nat → ℚ) (out0 out1 : Nat → ℚ) : (Nat → ℚ) × (Nat → ℚ) :=
  TwoMatVecT true kOuter kInner lanes mat0 mat1 mat_ofs vec add0 add1 out0 out1

/-- `TwoMatVec` (matvec-inl.h lines 269–278): null biases, never read. -/
def TwoMatVec (kOuter kInner lanes : Nat) (mat0 mat1 : Nat → ℚ) (mat_ofs : Nat)
    (vec : Nat → ℚ) (out0 out1 : Nat → ℚ) : (Nat → ℚ) × (Nat → ℚ) :=
  TwoMatVecT false kOuter kInner lanes mat0 mat1 mat_ofs vec (fun _ => 0) (fun _ => 0) out0 out1

/-- A fold whose state is a pair with independent components is the pair of
the component folds. -/
theorem foldl_pair {α β γ : Type} (f : α → γ → α) (g : β → γ → β) (l : List γ) (a : α) (b : β) :
    l.foldl (fun p x => (f p.1 x, g p.2 x)) (a, b) = (l.foldl f a, l.foldl g b) := by
  induction l generalizing a b with
  | nil => rfl
  | cons x xs ih => simp only [List.foldl_cons]; exact ih (f a x) (g b x)

/-- C3: `TwoMatVecAdd` (resp. `TwoMatVec`) writes into `out0` and `out1`
exactly the values two independent `MatVecAdd` (resp. `MatVec`) calls on
`(mat0, vec, add0)` and `(mat1, vec, add1)` would write. -/
theorem twoMatVec_equiv (kOuter kInner lanes : Nat) (mat0 mat1 : Nat → ℚ) (mat_ofs : Nat)
    (vec add0 add1 : Nat → ℚ) (out0 out1 : Nat → ℚ) :
    TwoMatVecAdd kOuter kInner lanes mat0 mat1 mat_ofs vec add0 add1 out0 out1 =
      (MatVecAdd kOuter kInner lanes mat0 mat_ofs vec add0 out0,
       MatVecAdd kOuter kInner lanes mat1 mat_ofs vec add1 out1) ∧
    TwoMatVec kOuter kInner lanes mat0 mat1 mat_ofs vec out0 out1 =
      (MatVec kOuter kInner lanes mat0 mat_ofs vec out0,
       MatVec kOuter kInner lanes mat1 mat_ofs vec out1) := by
  have main : ∀ (kAdd : Bool) (add0 add1 : Nat → ℚ),
      TwoMatVecT kAdd kOuter kInner lanes mat0 mat1 mat_ofs vec add0 add1 out0 out1 =
        (MatVecT kAdd kOuter kInner lanes mat0 mat_ofs vec add0 out0,
         MatVecT kAdd kOuter kInner lanes mat1 mat_ofs vec add1 out1) := by
    intro kAdd add0 add1
    simp only [TwoMatVecT, MatVecT]
    rw [foldl_pair
      (fun o strip => FullDotProductsForStrip kAdd mat0 mat_ofs kInner
          (strip * RowsPerStrip lanes kOuter) (RowsPerStrip lanes kOuter) vec add0
          (strip * RowsPerStrip lanes kOuter) o)
      (fun o strip => FullDotProductsForStrip kAdd mat1 mat_ofs kInner
          (strip * RowsPerStrip lanes kOuter) (RowsPerStrip lanes kOuter) vec add1
          (strip * RowsPerStrip lanes kOuter) o)
      (List.range (kOuter / RowsPerStrip lanes kOuter)) out0 out1]
    by_cases h : (kOuter / RowsPerStrip lanes kOuter) * RowsPerStrip lanes kOuter < kOuter
    · rw [if_pos h, if_pos h, if_pos h]
    · rw [if_neg h, if_neg h, if_neg h]
  exact ⟨main true add0 add1, main false (fun _ => 0) (fun _ => 0)⟩

/-! ## DecompressAndZeroPad (compression/compress-inl.h)

Output buffers are `Nat → Option ℚ` over lane positions; `none` marks a lane
the call never wrote.  BF16↔f32 promotion is exact (BF16 ⊂ f32), so it is the
identity on values; the f32 → BF16 demotion (`OrderedDemote2To`) rounds and is
kept as an abstract parameter `demote`. -/

/-- A full-vector `StoreU` of `L` lanes of `v` at output position `pos`. -/
def storeVec (L pos : Nat) (v : Nat → ℚ) (buf : Nat → Option ℚ) (k : Nat) : Option ℚ :=
  if pos ≤ k ∧ k < pos + L then some (v (k - pos)) else buf k

theorem storeVec_apply (L pos : Nat) (v : Nat → ℚ) (buf : Nat → Option ℚ) (k : Nat) :
    storeVec L pos v buf k =
      if pos ≤ k ∧ k < pos + L then some (v (k - pos)) else buf k := rfl

/-- `LoadN(d, p, n)` on an `L`-lane vector: the first `min n L` lanes from `p`,
remaining lanes `+0.0`. -/
def loadN (L : Nat) (packed : Nat → ℚ) (ofs n j : Nat) : ℚ :=
  if j < min n L then packed (ofs + j) else 0

/-- `LoadU(d, p)`: all lanes from `p`. -/
def loadU (packed : Nat → ℚ) (ofs j : Nat) : ℚ := packed (ofs + j)

/-- `OrderedDemote2To(dbf, f0, f1)`: a `2*NF`-lane vector whose first `NF`
lanes are `demote (f0 j)` and upper lanes `demote (f1 (j - NF))`. -/
def orderedDemote2To (NF : Nat) (demote : ℚ → ℚ) (f0 f1 : Nat → ℚ) (j : Nat) : ℚ :=
  if j < NF then demote (f0 j) else demote (f1 (j - NF))

/-- The fold modelling `if (num >= L) for (i = 0; i <= num - L; i += L)`,
which runs exactly `m = num / L` iterations with `i = L * t`: each iteration
stores one full `L`-lane vector whose lane `j` holds `f (L*t + j)`. -/
theorem storeFold_apply (L : Nat) (hL : 0 < L) (f : Nat → ℚ) (m : Nat) (buf : Nat → Option ℚ)
    (v : Nat → Nat → ℚ) (hv : ∀ t j, j < L → v t j = f (L * t + j)) :
    ∀ k, (List.range m).foldl (fun b t => storeVec L (L * t) (v t) b) buf k =
      if k < L * m then some (f k) else buf k := by
  induction m with
  | zero =>
    intro k
    simp only [List.range_zero, List.foldl_nil, Nat.mul_zero]
    rw [if_neg (by omega)]
  | succ m ih =>
    intro k
    have hLm : L * (m + 1) = L * m + L := by ring
    rw [List.range_succ, List.foldl_append, List.foldl_cons, List.foldl_nil, storeVec_apply,
      ih k, hLm]
    by_cases hin : L * m ≤ k ∧ k < L * m + L
    · rw [if_pos hin, hv m (k - L * m) (by omega),
        show L * m + (k - L * m) = k from by omega, if_pos (by omega)]
    · rw [if_neg hin]
      by_cases hk : k < L * m
      · rw [if_pos hk, if_pos (by omega)]
      · rw [if_neg hk, if_neg (by omega)]

/-- `CompressTraits<float>::DecompressAndZeroPad` with f32 target
(compress-inl.h lines 132–152) — and, with `L = Lanes(dbf)`, also
`CompressTraits<BF16>::DecompressAndZeroPad` with BF16 target (lines 240–262),
which is the same verbatim block copy (`LoadU`/`StoreU` per vector, `LoadN` +
`StoreU` for the nonzero tail).  The main loop runs `num / L` iterations. -/
def decompressAndZeroPadCopy (L : Nat) (packed : Nat → ℚ) (packed_ofs : Nat)
    (buf : Nat → Option ℚ) (num : Nat) : Nat → Option ℚ :=
  let buf1 := (List.range (num / L)).foldl
    (fun b t => storeVec L (L * t) (loadU packed (packed_ofs + L * t)) b) buf
  let i := L * (num / L)
  let remaining := num - i
  if remaining ≠ 0 then storeVec L i (loadN L packed (packed_ofs + i) remaining) buf1
  else buf1

/-- `CompressTraits<float>::DecompressAndZeroPad` with BF16 target
(compress-inl.h lines 105–130): the main loop steps `2*NF` f32 lanes and
stores one demoted BF16 vector of `2*NF` lanes; the tail loads
`remaining` / `remaining - min(remaining, NF)` lanes and stores one full
BF16 vector. -/
def decompressAndZeroPadF32ToBF16 (NF : Nat) (demote : ℚ → ℚ) (packed : Nat → ℚ)
    (packed_ofs : Nat) (buf : Nat → Option ℚ) (num : Nat) : Nat → Option ℚ :=
  let buf1 := (List.range (num / (2 * NF))).foldl
    (fun b t => storeVec (2 * NF) (2 * NF * t)
        (orderedDemote2To NF demote (loadU packed (packed_ofs + 2 * NF * t))
          (loadU packed (packed_ofs + 2 * NF * t + NF))) b) buf
  let i := 2 * NF * (num / (2 * NF))
  let remaining := num - i
  if remaining ≠ 0 then
    storeVec (2 * NF) i
      (orderedDemote2To NF demote (loadN NF packed (packed_ofs + i) remaining)
        (loadN NF packed (packed_ofs + i + NF) (remaining - min remaining NF))) buf1
  else buf1

/-- `CompressTraits<BF16>::DecompressAndZeroPad` with f32 target
(compress-inl.h lines 264–295): the main loop steps `2*NF`, loading one BF16
vector and storing its two promoted f32 halves; the tail loads `remaining`
BF16 lanes, always stores the promoted lower vector, and stores the upper
vector only when `remaining ≥ NF` (callers only pad to one vector). -/
def decompressAndZeroPadBF16ToF32 (NF : Nat) (packed : Nat → ℚ) (packed_ofs : Nat)
    (buf : Nat → Option ℚ) (num : Nat) : Nat → Option ℚ :=
  let buf1 := (List.range (num / (2 * NF))).foldl
    (fun b t =>
      storeVec NF (2 * NF * t + NF) (fun j => packed (packed_ofs + 2 * NF * t + NF + j))
        (storeVec NF (2 * NF * t) (fun j => packed (packed_ofs + 2 * NF * t + j)) b)) buf
  let i := 2 * NF * (num / (2 * NF))
  let remaining := num - i
  if remaining ≠ 0 then
    let buf2 := storeVec NF i (fun j => loadN (2 * NF) packed (packed_ofs + i) remaining j) buf1
    if remaining ≥ NF then
      storeVec NF (i + NF) (fun j => loadN (2 * NF) packed (packed_ofs + i) remaining (NF + j))
        buf2
    else buf2
  else buf1

/-- Exact per-lane characterization of the copy variant: starting from an
all-unwritten buffer, lane `k` is written iff `k < L*(num/L) + (num%L = 0 ? 0 : L)`,
holding `packed[packed_ofs + k]` below `num` and `+0.0` above. -/
theorem copy_char (L : Nat) (hL : 0 < L) (packed : Nat → ℚ) (packed_ofs num : Nat) :
    ∀ k, decompressAndZeroPadCopy L packed packed_ofs (fun _ => none) num k =
      if k < L * (num / L) + (if num % L = 0 then 0 else L) then
        some (if k < num then packed (packed_ofs + k) else 0)
      else none := by
  intro k
  have hdm := Nat.div_add_mod num L
  have hmlt : num % L < L := Nat.mod_lt _ hL
  have hfold := storeFold_apply L hL (fun k => packed (packed_ofs + k)) (num / L)
    (fun _ => none) (fun t => loadU packed (packed_ofs + L * t))
    (by intro t j _; simp only [loadU, Nat.add_assoc]) k
  simp only [decompressAndZeroPadCopy]
  by_cases h0 : num - L * (num / L) ≠ 0
  · rw [if_pos h0, storeVec_apply, hfold]
    have hmod : ¬ num % L = 0 := by omega
    rw [if_neg hmod]
    have hrem : num - L * (num / L) = num % L := by omega
    by_cases hin : L * (num / L) ≤ k ∧ k < L * (num / L) + L
    · rw [if_pos hin, if_pos (show k < L * (num / L) + L from hin.2)]
      simp only [loadN, hrem]
      by_cases hk : k < num
      · rw [if_pos (show k - L * (num / L) < min (num % L) L by omega), if_pos hk,
          show packed_ofs + L * (num / L) + (k - L * (num / L)) = packed_ofs + k from by omega]
      · rw [if_neg (show ¬ k - L * (num / L) < min (num % L) L by omega), if_neg hk]
    · rw [if_neg hin]
      by_cases hk : k < L * (num / L)
      · rw [if_pos hk, if_pos (show k < L * (num / L) + L by omega),
          if_pos (show k < num by omega)]
      · rw [if_neg hk, if_neg (show ¬ k < L * (num / L) + L by omega)]
  · rw [if_neg h0, hfold]
    have hmod : num % L = 0 := by omega
    have hnum : L * (num / L) = num := by omega
    rw [if_pos hmod, hnum, Nat.add_zero]
    by_cases hk : k < num
    · rw [if_pos hk, if_pos hk, if_pos hk]
    · rw [if_neg hk, if_neg hk]

/-- Exact per-lane characterization of the f32 → BF16 variant: with
`L = 2*NF = Lanes(dbf)` output lanes per vector, lane `k` is written iff
`k < L*(num/L) + (num%L = 0 ? 0 : L)`, holding the demotion of
`packed[packed_ofs + k]` below `num` and of `+0.0` above. -/
theorem f32ToBF16_char (NF : Nat) (hNF : 0 < NF) (demote : ℚ → ℚ) (packed : Nat → ℚ)
    (packed_ofs num : Nat) :
    ∀ k, decompressAndZeroPadF32ToBF16 NF demote packed packed_ofs (fun _ => none) num k =
      if k < 2 * NF * (num / (2 * NF)) + (if num % (2 * NF) = 0 then 0 else 2 * NF) then
        some (demote (if k < num then packed (packed_ofs + k) else 0))
      else none := by
  intro k
  have hL : 0 < 2 * NF := by omega
  have hdm := Nat.div_add_mod num (2 * NF)
  have hmlt : num % (2 * NF) < 2 * NF := Nat.mod_lt _ hL
  have hfold := storeFold_apply (2 * NF) hL (fun k => demote (packed (packed_ofs + k)))
    (num / (2 * NF)) (fun _ => none)
    (fun t => orderedDemote2To NF demote (loadU packed (packed_ofs + 2 * NF * t))
      (loadU packed (packed_ofs + 2 * NF * t + NF)))
    (by
      intro t j hj
      simp only [orderedDemote2To, loadU]
      by_cases hjNF : j < NF
      · rw [if_pos hjNF]
        congr 2
        omega
      · rw [if_neg hjNF]
        congr 2
        omega) k
  simp only [decompressAndZeroPadF32ToBF16]
  by_cases h0 : num - 2 * NF * (num / (2 * NF)) ≠ 0
  · rw [if_pos h0, storeVec_apply, hfold]
    have hmod : ¬ num % (2 * NF) = 0 := by omega
    rw [if_neg hmod]
    have hrem : num - 2 * NF * (num / (2 * NF)) = num % (2 * NF) := by omega
    by_cases hin : 2 * NF * (num / (2 * NF)) ≤ k ∧ k < 2 * NF * (num / (2 * NF)) + 2 * NF
    · rw [if_pos hin, if_pos (show k < 2 * NF * (num / (2 * NF)) + 2 * NF from hin.2)]
      simp only [orderedDemote2To, loadN, hrem]
      by_cases hjNF : k - 2 * NF * (num / (2 * NF)) < NF
      · rw [if_pos hjNF]
        by_cases hk : k < num
        · rw [if_pos (show k - 2 * NF * (num / (2 * NF)) < min (num % (2 * NF)) NF by omega),
            if_pos hk,
            show packed_ofs + 2 * NF * (num / (2 * NF)) + (k - 2 * NF * (num / (2 * NF))) =
              packed_ofs + k from by omega]
        · rw [if_neg (show ¬ k - 2 * NF * (num / (2 * NF)) < min (num % (2 * NF)) NF by omega),
            if_neg hk]
      · rw [if_neg hjNF,
          show num % (2 * NF) - min (num % (2 * NF)) NF = num % (2 * NF) - NF from by omega]
        by_cases hk : k < num
        · rw [if_pos (show k - 2 * NF * (num / (2 * NF)) - NF <
              min (num % (2 * NF) - NF) NF by omega), if_pos hk,
            show packed_ofs + 2 * NF * (num / (2 * NF)) + NF +
                (k - 2 * NF * (num / (2 * NF)) - NF) = packed_ofs + k from by omega]
        · rw [if_neg (show ¬ k - 2 * NF * (num / (2 * NF)) - NF <
              min (num % (2 * NF) - NF) NF by omega), if_neg hk]
    · rw [if_neg hin]
      by_cases hk : k < 2 * NF * (num / (2 * NF))
      · rw [if_pos hk, if_pos (show k < 2 * NF * (num / (2 * NF)) + 2 * NF by omega),
          if_pos (show k < num by omega)]
      · rw [if_neg hk, if_neg (show ¬ k < 2 * NF * (num / (2 * NF)) + 2 * NF by omega)]
  · rw [if_neg h0, hfold]
    have hmod : num % (2 * NF) = 0 := by omega
    have hnum : 2 * NF * (num / (2 * NF)) = num := by omega
    rw [if_pos hmod, hnum, Nat.add_zero]
    by_cases hk : k < num
    · rw [if_pos hk, if_pos hk, if_pos hk]
    · rw [if_neg hk, if_neg hk]

/-- The two promoted-half stores of one BF16 vector in the main loop of the
BF16 → f32 variant merge into a single `2*NF`-lane store. -/
theorem store2_merge (NF ofs a : Nat) (packed : Nat → ℚ) (b : Nat → Option ℚ) (k : Nat) :
    storeVec NF (a + NF) (fun j => packed (ofs + a + NF + j))
        (storeVec NF a (fun j => packed (ofs + a + j)) b) k =
      storeVec (2 * NF) a (fun j => packed (ofs + a + j)) b k := by
  simp only [storeVec]
  by_cases h1 : a + NF ≤ k ∧ k < a + NF + NF
  · rw [if_pos h1, if_pos (show a ≤ k ∧ k < a + 2 * NF by omega)]
    congr 2
    omega
  · rw [if_neg h1]
    by_cases h2 : a ≤ k ∧ k < a + NF
    · rw [if_pos h2, if_pos (show a ≤ k ∧ k < a + 2 * NF by omega)]
    · rw [if_neg h2, if_neg (show ¬ (a ≤ k ∧ k < a + 2 * NF) by omega)]

/-- Exact per-lane characterization of the BF16 → f32 variant: lane `k` is
written iff `k < 2*NF*(num/(2*NF)) + (r = 0 ? 0 : r < NF ? NF : 2*NF)` with
`r = num % (2*NF)`.  When `r = NF` this exceeds `⌈num/NF⌉*NF` by one vector:
the tail `remaining ≥ NF` test also fires at `remaining = NF`, storing a
second, all-zero vector. -/
theorem bf16ToF32_char (NF : Nat) (hNF : 0 < NF) (packed : Nat → ℚ) (packed_ofs num : Nat) :
    ∀ k, decompressAndZeroPadBF16ToF32 NF packed packed_ofs (fun _ => none) num k =
      if k < 2 * NF * (num / (2 * NF)) +
          (if num % (2 * NF) = 0 then 0
           else if num % (2 * NF) < NF then NF else 2 * NF) then
        some (if k < num then packed (packed_ofs + k) else 0)
      else none := by
  intro k
  have hL : 0 < 2 * NF := by omega
  have hdm := Nat.div_add_mod num (2 * NF)
  have hmlt : num % (2 * NF) < 2 * NF := Nat.mod_lt _ hL
  have hbody : (fun (b : Nat → Option ℚ) t =>
      storeVec NF (2 * NF * t + NF) (fun j => packed (packed_ofs + 2 * NF * t + NF + j))
        (storeVec NF (2 * NF * t) (fun j => packed (packed_ofs + 2 * NF * t + j)) b)) =
      (fun (b : Nat → Option ℚ) t =>
        storeVec (2 * NF) (2 * NF * t) (fun j => packed (packed_ofs + 2 * NF * t + j)) b) := by
    funext b t
    funext k2
    exact store2_merge NF packed_ofs (2 * NF * t) packed b k2
  have hfold := storeFold_apply (2 * NF) hL (fun k => packed (packed_ofs + k))
    (num / (2 * NF)) (fun _ => none) (fun t j => packed (packed_ofs + 2 * NF * t + j))
    (by
      intro t j _
      show packed (packed_ofs + 2 * NF * t + j) = packed (packed_ofs + (2 * NF * t + j))
      congr 1
      omega) k
  simp only [decompressAndZeroPadBF16ToF32]
  rw [hbody]
  by_cases h0 : num - 2 * NF * (num / (2 * NF)) ≠ 0
  · rw [if_pos h0]
    have hmod : ¬ num % (2 * NF) = 0 := by omega
    rw [if_neg hmod]
    by_cases hge : num - 2 * NF * (num / (2 * NF)) ≥ NF
    · rw [if_pos hge, if_neg (show ¬ num % (2 * NF) < NF by omega), storeVec_apply,
        storeVec_apply, hfold]
      by_cases ha : 2 * NF * (num / (2 * NF)) + NF ≤ k ∧
          k < 2 * NF * (num / (2 * NF)) + NF + NF
      · rw [if_pos ha, if_pos (show k < 2 * NF * (num / (2 * NF)) + 2 * NF by omega)]
        simp only [loadN]
        by_cases hk : k < num
        · rw [if_pos (show NF + (k - (2 * NF * (num / (2 * NF)) + NF)) <
              min (num - 2 * NF * (num / (2 * NF))) (2 * NF) by omega), if_pos hk,
            show packed_ofs + 2 * NF * (num / (2 * NF)) +
                (NF + (k - (2 * NF * (num / (2 * NF)) + NF))) = packed_ofs + k from by omega]
        · rw [if_neg (show ¬ NF + (k - (2 * NF * (num / (2 * NF)) + NF)) <
              min (num - 2 * NF * (num / (2 * NF))) (2 * NF) by omega), if_neg hk]
      · rw [if_neg ha]
        by_cases hb : 2 * NF * (num / (2 * NF)) ≤ k ∧ k < 2 * NF * (num / (2 * NF)) + NF
        · rw [if_pos hb, if_pos (show k < 2 * NF * (num / (2 * NF)) + 2 * NF by omega)]
          simp only [loadN]
          rw [if_pos (show k - 2 * NF * (num / (2 * NF)) <
              min (num - 2 * NF * (num / (2 * NF))) (2 * NF) by omega),
            if_pos (show k < num by omega),
            show packed_ofs + 2 * NF * (num / (2 * NF)) + (k - 2 * NF * (num / (2 * NF))) =
              packed_ofs + k from by omega]
        · rw [if_neg hb]
          by_cases hc : k < 2 * NF * (num / (2 * NF))
          · rw [if_pos hc, if_pos (show k < 2 * NF * (num / (2 * NF)) + 2 * NF by omega),
              if_pos (show k < num by omega)]
          · rw [if_neg hc, if_neg (show ¬ k < 2 * NF * (num / (2 * NF)) + 2 * NF by omega)]
    · rw [if_neg hge, if_pos (show num % (2 * NF) < NF by omega), storeVec_apply, hfold]
      by_cases hb : 2 * NF * (num / (2 * NF)) ≤ k ∧ k < 2 * NF * (num / (2 * NF)) + NF
      · rw [if_pos hb, if_pos (show k < 2 * NF * (num / (2 * NF)) + NF from hb.2)]
        simp only [loadN]
        by_cases hk : k < num
        · rw [if_pos (show k - 2 * NF * (num / (2 * NF)) <
              min (num - 2 * NF * (num / (2 * NF))) (2 * NF) by omega), if_pos hk,
            show packed_ofs + 2 * NF * (num / (2 * NF)) + (k - 2 * NF * (num / (2 * NF))) =
              packed_ofs + k from by omega]
        · rw [if_neg (show ¬ k - 2 * NF * (num / (2 * NF)) <
              min (num - 2 * NF * (num / (2 * NF))) (2 * NF) by omega), if_neg hk]
      · rw [if_neg hb]
        by_cases hc : k < 2 * NF * (num / (2 * NF))
        · rw [if_pos hc, if_pos (show k < 2 * NF * (num / (2 * NF)) + NF by omega),
            if_pos (show k < num by omega)]
        · rw [if_neg hc, if_neg (show ¬ k < 2 * NF * (num / (2 * NF)) + NF by omega)]
  · rw [if_neg h0, hfold]
    have hmod : num % (2 * NF) = 0 := by omega
    have hnum : 2 * NF * (num / (2 * NF)) = num := by omega
    rw [if_pos hmod, hnum, Nat.add_zero]
    by_cases hk : k < num
    · rw [if_pos hk, if_pos hk, if_pos hk]
    · rw [if_neg hk, if_neg hk]

/-- `⌈num/L⌉ * L` equals the written-lane count `L*(num/L) + (num%L = 0 ? 0 : L)`. -/
theorem ceilMul_char (L num : Nat) (hL : 0 < L) :
    ((num + L - 1) / L) * L = L * (num / L) + (if num % L = 0 then 0 else L) := by
  obtain ⟨q, r, hrL, hnum⟩ : ∃ q r, r < L ∧ num = L * q + r :=
    ⟨num / L, num % L, Nat.mod_lt _ hL, (Nat.div_add_mod num L).symm⟩
  subst hnum
  rw [Nat.mul_add_div hL, Nat.mul_add_mod, Nat.div_eq_of_lt hrL, Nat.mod_eq_of_lt hrL,
    Nat.add_zero]
  by_cases hr : r = 0
  · subst hr
    rw [if_pos rfl, show L * q + 0 + L - 1 = L * q + (L - 1) from by omega,
      Nat.mul_add_div hL, Nat.div_eq_of_lt (show L - 1 < L by omega)]
    ring
  · rw [if_neg hr, show L * q + r + L - 1 = L * q + (L * 1 + (r - 1)) from by
      have : L * 1 = L := by ring
      omega,
      Nat.mul_add_div hL, Nat.mul_add_div hL, Nat.div_eq_of_lt (show r - 1 < L by omega)]
    ring

/-- The BF16 → f32 written-lane count in terms of `⌈num/NF⌉*NF`: it matches
except at `num % (2*NF) = NF`, where it is `num + NF` (one extra vector). -/
theorem bf16ToF32_W_char (NF num : Nat) (hNF : 0 < NF) :
    2 * NF * (num / (2 * NF)) +
        (if num % (2 * NF) = 0 then 0 else if num % (2 * NF) < NF then NF else 2 * NF) =
      if num % (2 * NF) = NF then num + NF else ((num + NF - 1) / NF) * NF := by
  have hL : 0 < 2 * NF := by omega
  rw [ceilMul_char NF num hNF]
  obtain ⟨q, r, hrL, hnum⟩ : ∃ q r, r < 2 * NF ∧ num = 2 * NF * q + r :=
    ⟨num / (2 * NF), num % (2 * NF), Nat.mod_lt _ hL, (Nat.div_add_mod num (2 * NF)).symm⟩
  subst hnum
  rw [Nat.mul_add_div hL, Nat.mul_add_mod, Nat.div_eq_of_lt hrL, Nat.mod_eq_of_lt hrL,
    Nat.add_zero]
  by_cases hrlow : r < NF
  · have hdiv : (2 * NF * q + r) / NF = 2 * q + r / NF := by
      rw [show 2 * NF * q + r = NF * (2 * q) + r from by ring, Nat.mul_add_div hNF]
    have hmod : (2 * NF * q + r) % NF = r % NF := by
      rw [show 2 * NF * q + r = NF * (2 * q) + r from by ring, Nat.mul_add_mod]
    rw [hdiv, hmod, Nat.div_eq_of_lt hrlow, Nat.mod_eq_of_lt hrlow, Nat.add_zero,
      if_neg (show ¬ r = NF by omega)]
    by_cases hr : r = 0
    · subst hr
      rw [if_pos rfl, if_pos rfl]
      ring
    · rw [if_neg hr, if_pos hrlow, if_neg hr]
      ring
  · obtain ⟨s, hs, hr⟩ : ∃ s, s < NF ∧ r = NF + s := ⟨r - NF, by omega, by omega⟩
    subst hr
    have hdiv : (2 * NF * q + (NF + s)) / NF = 2 * q + 1 + s / NF := by
      rw [show 2 * NF * q + (NF + s) = NF * (2 * q + 1) + s from by ring, Nat.mul_add_div hNF]
    have hmod : (2 * NF * q + (NF + s)) % NF = s % NF := by
      rw [show 2 * NF * q + (NF + s) = NF * (2 * q + 1) + s from by ring, Nat.mul_add_mod]
    rw [hdiv, hmod, Nat.div_eq_of_lt hs, Nat.mod_eq_of_lt hs, Nat.add_zero,
      if_neg (show ¬ NF + s = 0 by omega), if_neg (show ¬ NF + s < NF by omega)]
    by_cases hs0 : s = 0
    · subst hs0
      rw [if_pos (show NF + 0 = NF by omega)]
      ring
    · rw [if_neg (show ¬ NF + s = NF by omega), if_neg hs0]
      ring

/-- Consequences of a per-lane characterization: the written-lane set is
exactly `[0, W)` and written lanes at positions ≥ `num` hold `+0.0`. -/
theorem char_to_claims (dec : Nat → Option ℚ) (W num : Nat) (g : Nat → ℚ)
    (hchar : ∀ k, dec k = if k < W then some (g k) else none)
    (hzero : ∀ k, num ≤ k → g k = 0) :
    (∀ k, dec k ≠ none ↔ k < W) ∧ (∀ k, num ≤ k → k < W → dec k = some 0) := by
  constructor
  · intro k
    rw [hchar k]
    by_cases hk : k < W
    · simp [hk]
    · simp [hk]
  · intro k hnum hW
    rw [hchar k, if_pos hW, hzero k hnum]

/-- C2 (amended): `DecompressAndZeroPad` writes exactly `⌈num/lanes⌉·lanes`
output lanes, with every written lane at position ≥ `num` equal to `+0.0` and
no lane beyond written — for the f32→f32 (`lanes = NF`), BF16→BF16
(`lanes = N16`) and f32→BF16 (`lanes = 2·NF`, the BF16 vector width) variants.
The BF16→f32 variant satisfies the same except when `num mod (2·lanes) =
lanes`: there the tail's `remaining ≥ lanes` test also fires, storing a second
all-`+0.0` vector, so `num + lanes` lanes are written. -/
theorem decompressAndZeroPad_lane_counts (NF N16 : Nat) (hNF : 0 < NF) (hN16 : 0 < N16)
    (demote : ℚ → ℚ) (hdemote0 : demote 0 = 0) (packed : Nat → ℚ) (packed_ofs num : Nat) :
    ((∀ k, decompressAndZeroPadCopy NF packed packed_ofs (fun _ => none) num k ≠ none ↔
        k < ((num + NF - 1) / NF) * NF) ∧
      (∀ k, num ≤ k → k < ((num + NF - 1) / NF) * NF →
        decompressAndZeroPadCopy NF packed packed_ofs (fun _ => none) num k = some 0)) ∧
    ((∀ k, decompressAndZeroPadCopy N16 packed packed_ofs (fun _ => none) num k ≠ none ↔
        k < ((num + N16 - 1) / N16) * N16) ∧
      (∀ k, num ≤ k → k < ((num + N16 - 1) / N16) * N16 →
        decompressAndZeroPadCopy N16 packed packed_ofs (fun _ => none) num k = some 0)) ∧
    ((∀ k, decompressAndZeroPadF32ToBF16 NF demote packed packed_ofs (fun _ => none) num k ≠
          none ↔ k < ((num + 2 * NF - 1) / (2 * NF)) * (2 * NF)) ∧
      (∀ k, num ≤ k → k < ((num + 2 * NF - 1) / (2 * NF)) * (2 * NF) →
        decompressAndZeroPadF32ToBF16 NF demote packed packed_ofs (fun _ => none) num k =
          some 0)) ∧
    ((∀ k, decompressAndZeroPadBF16ToF32 NF packed packed_ofs (fun _ => none) num k ≠ none ↔
        k < (if num % (2 * NF) = NF then num + NF else ((num + NF - 1) / NF) * NF)) ∧
      (∀ k, num ≤ k →
        k < (if num % (2 * NF) = NF then num + NF else ((num + NF - 1) / NF) * NF) →
        decompressAndZeroPadBF16ToF32 NF packed packed_ofs (fun _ => none) num k = some 0)) := by
  have hL2 : 0 < 2 * NF := by omega
  refine ⟨?_, ?_, ?_, ?_⟩
  · exact char_to_claims _ _ num (fun k => if k < num then packed (packed_ofs + k) else 0)
      (fun k => by rw [copy_char NF hNF packed packed_ofs num k, ceilMul_char NF num hNF])
      (fun k hk => by
        show (if k < num then packed (packed_ofs + k) else 0) = 0
        rw [if_neg (by omega)])
  · exact char_to_claims _ _ num (fun k => if k < num then packed (packed_ofs + k) else 0)
      (fun k => by rw [copy_char N16 hN16 packed packed_ofs num k, ceilMul_char N16 num hN16])
      (fun k hk => by
        show (if k < num then packed (packed_ofs + k) else 0) = 0
        rw [if_neg (by omega)])
  · exact char_to_claims _ _ num
      (fun k => demote (if k < num then packed (packed_ofs + k) else 0))
      (fun k => by
        rw [f32ToBF16_char NF hNF demote packed packed_ofs num k,
          ceilMul_char (2 * NF) num hL2])
      (fun k hk => by
        show demote (if k < num then packed (packed_ofs + k) else 0) = 0
        rw [if_neg (by omega), hdemote0])
  · exact char_to_claims _ _ num (fun k => if k < num then packed (packed_ofs + k) else 0)
      (fun k => by
        rw [bf16ToF32_char NF hNF packed packed_ofs num k, bf16ToF32_W_char NF num hNF])
      (fun k hk => by
        show (if k < num then packed (packed_ofs + k) else 0) = 0
        rw [if_neg (by omega)])

/-- Witness for the amended C2 at `NF = 4`, `N16 = 8`, `demote = id`,
`num = 4`, specializing the BF16→f32 part at lane `k = 4`. -/
theorem decompressAndZeroPad_lane_counts_witness :
    (0 : Nat) < 4 ∧ (0 : Nat) < 8 ∧ (fun x : ℚ => x) 0 = 0 ∧
    (decompressAndZeroPadBF16ToF32 4 (fun _ => (1 : ℚ)) 0 (fun _ => none) 4 4 ≠ none ↔
      4 < (if 4 % (2 * 4) = 4 then 4 + 4 else ((4 + 4 - 1) / 4) * 4)) :=
  ⟨by decide, by decide, rfl,
    (decompressAndZeroPad_lane_counts 4 8 (by decide) (by decide) (fun x : ℚ => x) rfl
      (fun _ => (1 : ℚ)) 0 4).2.2.2.1 4⟩

/-- C2 as stated is false: with `NF = 4` f32 output lanes and `num = 4`, the
BF16→f32 variant's tail has `remaining = 4 = NF`, so it stores a second
vector and writes lane 4 (value `+0.0`) — beyond the claimed
`⌈num/lanes⌉·lanes = 4` written lanes. -/
theorem c2_claim_counterexample :
    ((4 + 4 - 1) / 4) * 4 = 4 ∧
    decompressAndZeroPadBF16ToF32 4 (fun _ => (1 : ℚ)) 0 (fun _ => none) 4 4 = some 0 := by
  constructor
  · decide
  · decide

/-! ## Bounds-checked codec wrappers (compress-inl.h lines 395–488) and the
compress driver.  `PackedSpan` itself lives in `compression/compress.h` (not
under `src/`); its `BoundsCheck` is modelled from the spec. -/

/-- Modelled from the spec: `PackedSpan::BoundsCheck(ofs, num)`
(compression/compress.h, not under `src/`) aborts iff `ofs + num > capacity`
(spec §4.4, P7).  `true` = in bounds (no abort). -/
def boundsCheckOk (capacity ofs num : Nat) : Bool := decide (ofs + num ≤ capacity)

/-- `kBatch` (compress-inl.h line 414). -/
def kBatch : Nat := 8192

/-- `Compress` (compress-inl.h lines 397–440): `packed.BoundsCheck(packed_ofs,
num)` runs first (abort = `none`); then `DivCeil(num, kBatch)` batches are
dispatched over the pool (disjoint output ranges, modelled as a sequential
fold); batch `b` compresses `num - b*kBatch` elements if it is the last batch,
else `kBatch`, from `raw + b*kBatch` to `packed_ofs + b*kBatch`.  The trait's
per-batch `Compress` is a parameter, as in the templated source. -/
def Compress (traitCompress : (Nat → ℚ) → Nat → (Nat → Option ℚ) → Nat → (Nat → Option ℚ))
    (raw : Nat → ℚ) (num capacity : Nat) (packed : Nat → Option ℚ)
    (packed_ofs : Nat) : Option (Nat → Option ℚ) :=
  if boundsCheckOk capacity packed_ofs num then
    some ((List.range ((num + kBatch - 1) / kBatch)).foldl
      (fun p b =>
        traitCompress (fun j => raw (b * kBatch + j))
          (if b = (num + kBatch - 1) / kBatch - 1 then num - b * kBatch else kBatch)
          p (packed_ofs + b * kBatch))
      packed)
  else none

/-- `Decompress2` (compress-inl.h lines 464–473) for `Packed = float`,
`D = f32`: `packed.BoundsCheck(packed_ofs, 2 * Lanes(d))` then
`CompressTraits<float>::Load2` (lines 97–103), two unaligned f32 loads. -/
def Decompress2F32 (NF : Nat) (packed : Nat → ℚ) (capacity packed_ofs : Nat) :
    Option ((Nat → ℚ) × (Nat → ℚ)) :=
  if boundsCheckOk capacity packed_ofs (2 * NF) then
    some (fun j => packed (packed_ofs + j), fun j => packed (packed_ofs + NF + j))
  else none

/-- `DecompressAndZeroPad` (compress-inl.h lines 480–488):
`packed.BoundsCheck(packed_ofs, num)` then the trait implementation
(a parameter, as in the templated source). -/
def DecompressAndZeroPadChecked (impl : Nat → Nat → (Nat → Option ℚ))
    (capacity packed_ofs num : Nat) : Option (Nat → Option ℚ) :=
  if boundsCheckOk capacity packed_ofs num then some (impl packed_ofs num) else none

/-- C5: each codec wrapper aborts via `BoundsCheck` — before any buffer
access — exactly when `ofs + num` exceeds the span capacity (`num` being
`2 * Lanes(d)` for `Decompress2`); under `ofs + num ≤ capacity` the abort
branch is unreachable and the call produces a result. -/
theorem bounds_check_gates
    (traitCompress : (Nat → ℚ) → Nat → (Nat → Option ℚ) → Nat → (Nat → Option ℚ))
    (impl : Nat → Nat → (Nat → Option ℚ)) (raw packedv : Nat → ℚ)
    (packed : Nat → Option ℚ) (NF num capacity ofs : Nat) :
    (Compress traitCompress raw num capacity packed ofs = none ↔ capacity < ofs + num) ∧
    (Decompress2F32 NF packedv capacity ofs = none ↔ capacity < ofs + 2 * NF) ∧
    (DecompressAndZeroPadChecked impl capacity ofs num = none ↔ capacity < ofs + num) := by
  refine ⟨?_, ?_, ?_⟩
  · unfold Compress boundsCheckOk
    by_cases h : ofs + num ≤ capacity
    · simp [h]
    · simp [h]
      omega
  · unfold Decompress2F32 boundsCheckOk
    by_cases h : ofs + 2 * NF ≤ capacity
    · simp [h]
    · simp [h]
      omega
  · unfold DecompressAndZeroPadChecked boundsCheckOk
    by_cases h : ofs + num ≤ capacity
    · simp [h]
    · simp [h]
      omega

/-- `CompressTraits<float>::Compress` (compress-inl.h lines 65–71):
`hwy::CopyBytes(raw, packed.ptr + packed_ofs, num * sizeof(float))`, i.e. a
copy of `num` elements to positions `[packed_ofs, packed_ofs + num)`. -/
def compressF32 (raw : Nat → ℚ) (num : Nat) (packed : Nat → Option ℚ)
    (packed_ofs : Nat) : Nat → Option ℚ :=
  fun k => if packed_ofs ≤ k ∧ k < packed_ofs + num then some (raw (k - packed_ofs))
    else packed k

theorem compressF32_apply (raw : Nat → ℚ) (num : Nat) (packed : Nat → Option ℚ)
    (packed_ofs k : Nat) :
    compressF32 raw num packed packed_ofs k =
      if packed_ofs ≤ k ∧ k < packed_ofs + num then some (raw (k - packed_ofs))
      else packed k := rfl

/-- The batched compress fold with the f32 trait is, after `m` of the
`DivCeil(num, kBatch)` batches, a copy of the first `min num (m*kBatch)`
elements. -/
theorem compressBatches_apply (raw : Nat → ℚ) (num packed_ofs : Nat)
    (packed : Nat → Option ℚ) :
    ∀ m, m ≤ (num + kBatch - 1) / kBatch →
      ∀ k, ((List.range m).foldl
          (fun p b =>
            compressF32 (fun j => raw (b * kBatch + j))
              (if b = (num + kBatch - 1) / kBatch - 1 then num - b * kBatch else kBatch)
              p (packed_ofs + b * kBatch))
          packed) k =
        if packed_ofs ≤ k ∧ k < packed_ofs + min num (m * kBatch) then
          some (raw (k - packed_ofs))
        else packed k := by
  simp only [kBatch]
  intro m
  induction m with
  | zero =>
    intro _ k
    simp only [List.range_zero, List.foldl_nil]
    rw [if_neg (by omega)]
  | succ m ih =>
    intro hm k
    rw [List.range_succ, List.foldl_append, List.foldl_cons, List.foldl_nil,
      compressF32_apply, ih (by omega) k]
    by_cases hlast : m = (num + 8192 - 1) / 8192 - 1
    · rw [if_pos hlast]
      by_cases hin : packed_ofs + m * 8192 ≤ k ∧
          k < packed_ofs + m * 8192 + (num - m * 8192)
      · rw [if_pos hin, if_pos (by omega)]
        show some (raw (m * 8192 + (k - (packed_ofs + m * 8192)))) = _
        congr 2
        omega
      · rw [if_neg hin]
        by_cases hk : packed_ofs ≤ k ∧ k < packed_ofs + min num (m * 8192)
        · rw [if_pos hk, if_pos (by omega)]
        · rw [if_neg hk, if_neg (by omega)]
    · rw [if_neg hlast]
      by_cases hin : packed_ofs + m * 8192 ≤ k ∧ k < packed_ofs + m * 8192 + 8192
      · rw [if_pos hin, if_pos (by omega)]
        show some (raw (m * 8192 + (k - (packed_ofs + m * 8192)))) = _
        congr 2
        omega
      · rw [if_neg hin]
        by_cases hk : packed_ofs ≤ k ∧ k < packed_ofs + min num (m * 8192)
        · rw [if_pos hk, if_pos (by omega)]
        · rw [if_neg hk, if_neg (by omega)]

/-- `Compressor::Insert` (compress-inl.h lines 633–642): the compression step
is `Compress(weights, weights_count, work_, PackedSpan<Packed>{packed,
weights_count}, 0, pool_)` — span capacity `weights_count`, offset `0`.  The
`out_capacity` and `packed_ofs` arguments are not passed to `Compress` (they
feed only the blob writer / are unused). -/
def Compressor.Insert
    (traitCompress : (Nat → ℚ) → Nat → (Nat → Option ℚ) → Nat → (Nat → Option ℚ))
    (weights : Nat → ℚ) (weights_count out_capacity packed_ofs : Nat)
    (packed : Nat → Option ℚ) : Option (Nat → Option ℚ) :=
  Compress traitCompress weights weights_count weights_count packed 0

/-- C10: `Compressor::Insert` writes the packed data starting at offset 0 of a
span of capacity `weights_count`, regardless of the supplied `packed_ofs` and
`out_capacity`: the result is independent of both, equals the `Compress` call
at offset 0 with capacity `weights_count`, and (for the f32 codec) overwrites
exactly positions `[0, weights_count)`. -/
theorem insert_ignores_packed_ofs (weights : Nat → ℚ)
    (weights_count out_capacity packed_ofs out_capacity2 packed_ofs2 : Nat)
    (packed : Nat → Option ℚ) :
    Compressor.Insert compressF32 weights weights_count out_capacity packed_ofs packed =
      Compressor.Insert compressF32 weights weights_count out_capacity2 packed_ofs2 packed ∧
    Compressor.Insert compressF32 weights weights_count out_capacity packed_ofs packed =
      Compress compressF32 weights weights_count weights_count packed 0 ∧
    Compressor.Insert compressF32 weights weights_count out_capacity packed_ofs packed =
      some (fun k => if k < weights_count then some (weights k) else packed k) := by
  refine ⟨rfl, rfl, ?_⟩
  unfold Compressor.Insert Compress
  rw [if_pos (by simp [boundsCheckOk])]
  congr 1
  funext k
  rw [compressBatches_apply weights weights_count 0 packed ((weights_count + kBatch - 1) / kBatch)
    (Nat.le_refl _) k]
  simp only [kBatch]
  by_cases hk : k < weights_count
  · rw [if_pos (show 0 ≤ k ∧
        k < 0 + min weights_count ((weights_count + 8192 - 1) / 8192 * 8192) by omega),
      if_pos hk, Nat.sub_zero]
  · rw [if_neg (show ¬ (0 ≤ k ∧
        k < 0 + min weights_count ((weights_count + 8192 - 1) / 8192 * 8192)) by omega),
      if_neg hk]

/-! ## Single-input `DecompressAndCall` (compress-inl.h lines 568–618) -/

/-- Kernel accumulator state: four f32 `sum` vectors and four compensation
vectors (spec §4.6). -/
structure KernelState where
  sum0 : Nat → ℚ
  sum1 : Nat → ℚ
  sum2 : Nat → ℚ
  sum3 : Nat → ℚ
  comp0 : Nat → ℚ
  comp1 : Nat → ℚ
  comp2 : Nat → ℚ
  comp3 : Nat → ℚ

/-- `sum0..3 = comp0..3 = hn::Zero` (lines 583–590). -/
def zeroState : KernelState :=
  ⟨fun _ => 0, fun _ => 0, fun _ => 0, fun _ => 0,
   fun _ => 0, fun _ => 0, fun _ => 0, fun _ => 0⟩

/-- Modelled from the spec: the dot-product accumulation kernel (the concrete
kernels live in `ops/dot-inl.h`, which is not under `src/`).  `Update4`
lane-wise multiply-accumulates the four weight/vector pairs into `sum0..3`. -/
def dotUpdate4 (w0 w1 w2 w3 v0 v1 v2 v3 : Nat → ℚ) (s : KernelState) : KernelState :=
  { s with
    sum0 := fun j => s.sum0 j + w0 j * v0 j
    sum1 := fun j => s.sum1 j + w1 j * v1 j
    sum2 := fun j => s.sum2 j + w2 j * v2 j
    sum3 := fun j => s.sum3 j + w3 j * v3 j }

/-- Modelled from the spec: `Update1` multiply-accumulates one pair into
`sum0`. -/
def dotUpdate1 (w0 v0 : Nat → ℚ) (s : KernelState) : KernelState :=
  { s with sum0 := fun j => s.sum0 j + w0 j * v0 j }

/-- Modelled from the spec: `Reduce` returns the horizontal sum over the `N`
lanes of all accumulators (the compensation vectors stay zero for the plain
dot kernel). -/
def dotReduce (N : Nat) (s : KernelState) : ℚ :=
  ∑ j in Finset.range N,
    (s.sum0 j + s.sum1 j + s.sum2 j + s.sum3 j +
      s.comp0 j + s.comp1 j + s.comp2 j + s.comp3 j)

theorem dotReduce_zeroState (N : Nat) : dotReduce N zeroState = 0 := by
  simp [dotReduce, zeroState]

theorem dotReduce_update4 (N : Nat) (w0 w1 w2 w3 v0 v1 v2 v3 : Nat → ℚ) (s : KernelState) :
    dotReduce N (dotUpdate4 w0 w1 w2 w3 v0 v1 v2 v3 s) =
      dotReduce N s + ∑ j in Finset.range N,
        (w0 j * v0 j + w1 j * v1 j + w2 j * v2 j + w3 j * v3 j) := by
  simp only [dotReduce, dotUpdate4]
  rw [← Finset.sum_add_distrib]
  exact Finset.sum_congr rfl fun j _ => by ring

theorem dotReduce_update1 (N : Nat) (w0 v0 : Nat → ℚ) (s : KernelState) :
    dotReduce N (dotUpdate1 w0 v0 s) =
      dotReduce N s + ∑ j in Finset.range N, w0 j * v0 j := by
  simp only [dotReduce, dotUpdate1]
  rw [← Finset.sum_add_distrib]
  exact Finset.sum_congr rfl fun j _ => by ring

/-- The single-input `DecompressAndCall` (compress-inl.h lines 568–618) with
the dot kernel, `D` = f32, `VecT` = float.  `v_span = MakeSpan(vec_aligned,
num)`, so every inner `Decompress2`/`DecompressAndZeroPad` is bounds-checked
against capacity `num` (abort = `none`).  The main loop (`num / (4N)`
iterations) decompresses four vectors `v0..v3` and passes them as BOTH the
weight and the vector argument groups: `Update4(d, v0..v3, v0..v3, ...)`.  The
tail decompresses the rest zero-padded into `padded_v` and passes the same
vector twice to `Update1`, for `⌈remaining/N⌉` vectors.  Returns `Reduce`. -/
def decompressAndCallSingle (N : Nat) (vec : Nat → ℚ) (num : Nat) : Option ℚ :=
  let main := (List.range (num / (4 * N))).foldl
    (fun acc t => acc.bind (fun s =>
      (Decompress2F32 N vec num (4 * N * t)).bind (fun p01 =>
        (Decompress2F32 N vec num (4 * N * t + 2 * N)).bind (fun p23 =>
          some (dotUpdate4 p01.1 p01.2 p23.1 p23.2 p01.1 p01.2 p23.1 p23.2 s)))))
    (some zeroState)
  let i := 4 * N * (num / (4 * N))
  let remaining := num - i
  if remaining ≠ 0 then
    (DecompressAndZeroPadChecked
        (fun ofs n => decompressAndZeroPadCopy N vec ofs (fun _ => none) n)
        num i remaining).bind
      (fun padded => main.bind (fun s =>
        some (dotReduce N
          ((List.range ((remaining + N - 1) / N)).foldl
            (fun s2 t => dotUpdate1 (fun j => (padded (N * t + j)).getD 0)
              (fun j => (padded (N * t + j)).getD 0) s2) s))))
  else main.map (dotReduce N)

/-- One `Update4` block covers a `4*N`-lane slice of the self dot product. -/
theorem selfSlice_four (vec : Nat → ℚ) (a N : Nat) :
    ∑ j in Finset.range N,
        (vec (a + j) * vec (a + j) + vec (a + N + j) * vec (a + N + j) +
          vec (a + 2 * N + j) * vec (a + 2 * N + j) +
          vec (a + 2 * N + N + j) * vec (a + 2 * N + N + j)) =
      dotSlice vec a vec a (4 * N) := by
  rw [show 4 * N = N + (N + (N + N)) from by ring, dotSlice_add, dotSlice_add, dotSlice_add]
  unfold dotSlice
  rw [← Finset.sum_add_distrib, ← Finset.sum_add_distrib, ← Finset.sum_add_distrib]
  refine Finset.sum_congr rfl ?_
  intro j _
  ring_nf

/-- Invariant of the main loop: after `m` iterations the fold has not aborted
and the accumulated reduction is the self dot product of the first `4*N*m`
elements. -/
theorem mainFold_eq (N : Nat) (vec : Nat → ℚ) (num : Nat) :
    ∀ m, 4 * N * m ≤ num →
      ∃ s, ((List.range m).foldl
          (fun acc t => acc.bind (fun s =>
            (Decompress2F32 N vec num (4 * N * t)).bind (fun p01 =>
              (Decompress2F32 N vec num (4 * N * t + 2 * N)).bind (fun p23 =>
                some (dotUpdate4 p01.1 p01.2 p23.1 p23.2 p01.1 p01.2 p23.1 p23.2 s)))))
          (some zeroState)) = some s ∧
        dotReduce N s = dotSlice vec 0 vec 0 (4 * N * m) := by
  intro m
  induction m with
  | zero =>
    exact fun _ => ⟨zeroState, rfl, by simp [dotReduce_zeroState, dotSlice]⟩
  | succ m ih =>
    intro hm
    have h4 : 4 * N * (m + 1) = 4 * N * m + 4 * N := by ring
    obtain ⟨s, hs, ht⟩ := ih (by omega)
    have hd1 : Decompress2F32 N vec num (4 * N * m) =
        some (fun j => vec (4 * N * m + j), fun j => vec (4 * N * m + N + j)) := by
      unfold Decompress2F32 boundsCheckOk
      rw [if_pos (by simp only [decide_eq_true_eq]; omega)]
    have hd2 : Decompress2F32 N vec num (4 * N * m + 2 * N) =
        some (fun j => vec (4 * N * m + 2 * N + j),
          fun j => vec (4 * N * m + 2 * N + N + j)) := by
      unfold Decompress2F32 boundsCheckOk
      rw [if_pos (by simp only [decide_eq_true_eq]; omega)]
    rw [List.range_succ, List.foldl_append, List.foldl_cons, List.foldl_nil, hs]
    simp only [Option.some_bind, hd1, hd2]
    refine ⟨_, rfl, ?_⟩
    rw [dotReduce_update4, ht, h4,
      dotSlice_add vec 0 vec 0 (4 * N * m) (4 * N)]
    simp only [Nat.zero_add]
    congr 1
    exact selfSlice_four vec (4 * N * m) N

/-- Invariant of the tail loop: `nt` `Update1` steps add the self dot product
of the first `N*nt` padded lanes. -/
theorem tailFold_reduce (N : Nat) (pval : Nat → ℚ) (s : KernelState) :
    ∀ nt, dotReduce N ((List.range nt).foldl
        (fun s2 t => dotUpdate1 (fun j => pval (N * t + j)) (fun j => pval (N * t + j)) s2)
        s) =
      dotReduce N s + dotSlice pval 0 pval 0 (N * nt) := by
  intro nt
  induction nt with
  | zero => simp [dotSlice]
  | succ nt ih =>
    rw [List.range_succ, List.foldl_append, List.foldl_cons, List.foldl_nil]
    simp only [dotReduce_update1]
    rw [ih, show N * (nt + 1) = N * nt + N from by ring,
      dotSlice_add pval 0 pval 0 (N * nt) N]
    simp only [Nat.zero_add]
    rw [show dotSlice pval (N * nt) pval (N * nt) N =
        ∑ j in Finset.range N, pval (N * nt + j) * pval (N * nt + j) from rfl]
    ring

/-- C9: the single-input `DecompressAndCall` passes the same decoded vectors
as both the weight and the vector argument groups of `Update4` (and the same
vector twice to `Update1` in the tail), so with the dot-product kernel it
returns the self dot product `Σ_{i<num} vec[i]²`; no inner bounds check
aborts. -/
theorem decompressAndCallSingle_self_dot (N : Nat) (hN : 0 < N) (vec : Nat → ℚ) (num : Nat) :
    decompressAndCallSingle N vec num = some (∑ j in Finset.range num, vec j * vec j) := by
  have hdm := Nat.div_add_mod num (4 * N)
  have hsum : dotSlice vec 0 vec 0 num = ∑ j in Finset.range num, vec j * vec j := by
    unfold dotSlice
    exact Finset.sum_congr rfl fun j _ => by rw [Nat.zero_add]
  obtain ⟨s, hs, ht⟩ := mainFold_eq N vec num (num / (4 * N)) (by omega)
  simp only [decompressAndCallSingle]
  by_cases h0 : num - 4 * N * (num / (4 * N)) ≠ 0
  · rw [if_pos h0]
    rw [show DecompressAndZeroPadChecked
          (fun ofs n => decompressAndZeroPadCopy N vec ofs (fun _ => none) n)
          num (4 * N * (num / (4 * N))) (num - 4 * N * (num / (4 * N))) =
        some (decompressAndZeroPadCopy N vec (4 * N * (num / (4 * N))) (fun _ => none)
          (num - 4 * N * (num / (4 * N)))) from by
      unfold DecompressAndZeroPadChecked boundsCheckOk
      rw [if_pos (by simp only [decide_eq_true_eq]; omega)]]
    rw [Option.some_bind, hs, Option.some_bind]
    congr 1
    have hWrem : num - 4 * N * (num / (4 * N)) ≤
        N * ((num - 4 * N * (num / (4 * N))) / N) +
          (if (num - 4 * N * (num / (4 * N))) % N = 0 then 0 else N) := by
      have hdm2 := Nat.div_add_mod (num - 4 * N * (num / (4 * N))) N
      have hmlt2 : (num - 4 * N * (num / (4 * N))) % N < N := Nat.mod_lt _ hN
      by_cases hr : (num - 4 * N * (num / (4 * N))) % N = 0
      · rw [if_pos hr]
        omega
      · rw [if_neg hr]
        omega
    have hpad : ∀ x, ((decompressAndZeroPadCopy N vec (4 * N * (num / (4 * N)))
          (fun _ => none) (num - 4 * N * (num / (4 * N)))) x).getD 0 =
        (fun y => if y < num - 4 * N * (num / (4 * N)) then
          vec (4 * N * (num / (4 * N)) + y) else 0) x := by
      intro x
      rw [copy_char N hN vec (4 * N * (num / (4 * N))) (num - 4 * N * (num / (4 * N))) x]
      by_cases hx : x < N * ((num - 4 * N * (num / (4 * N))) / N) +
          (if (num - 4 * N * (num / (4 * N))) % N = 0 then 0 else N)
      · rw [if_pos hx, Option.getD_some]
      · rw [if_neg hx, Option.getD_none]
        show (0 : ℚ) = if x < num - 4 * N * (num / (4 * N)) then _ else 0
        rw [if_neg (by omega)]
    have hfun : (fun (s2 : KernelState) (t : Nat) =>
        dotUpdate1
          (fun j => ((decompressAndZeroPadCopy N vec (4 * N * (num / (4 * N)))
            (fun _ => none) (num - 4 * N * (num / (4 * N)))) (N * t + j)).getD 0)
          (fun j => ((decompressAndZeroPadCopy N vec (4 * N * (num / (4 * N)))
            (fun _ => none) (num - 4 * N * (num / (4 * N)))) (N * t + j)).getD 0) s2) =
        (fun s2 t => dotUpdate1
          (fun j => (fun y => if y < num - 4 * N * (num / (4 * N)) then
            vec (4 * N * (num / (4 * N)) + y) else 0) (N * t + j))
          (fun j => (fun y => if y < num - 4 * N * (num / (4 * N)) then
            vec (4 * N * (num / (4 * N)) + y) else 0) (N * t + j)) s2) := by
      funext s2 t
      have hv : (fun j => ((decompressAndZeroPadCopy N vec (4 * N * (num / (4 * N)))
            (fun _ => none) (num - 4 * N * (num / (4 * N)))) (N * t + j)).getD 0) =
          (fun j => (fun y => if y < num - 4 * N * (num / (4 * N)) then
            vec (4 * N * (num / (4 * N)) + y) else 0) (N * t + j)) := by
        funext j
        exact hpad (N * t + j)
      rw [hv]
    rw [hfun, tailFold_reduce N
      (fun y => if y < num - 4 * N * (num / (4 * N)) then
        vec (4 * N * (num / (4 * N)) + y) else 0) s
      ((num - 4 * N * (num / (4 * N)) + N - 1) / N)]
    have hpadSlice : dotSlice
        (fun y => if y < num - 4 * N * (num / (4 * N)) then
          vec (4 * N * (num / (4 * N)) + y) else 0) 0
        (fun y => if y < num - 4 * N * (num / (4 * N)) then
          vec (4 * N * (num / (4 * N)) + y) else 0) 0
        (N * ((num - 4 * N * (num / (4 * N)) + N - 1) / N)) =
        dotSlice vec (4 * N * (num / (4 * N))) vec (4 * N * (num / (4 * N)))
          (num - 4 * N * (num / (4 * N))) := by
      have hge : num - 4 * N * (num / (4 * N)) ≤
          N * ((num - 4 * N * (num / (4 * N)) + N - 1) / N) := by
        have hdm3 := Nat.div_add_mod (num - 4 * N * (num / (4 * N)) + N - 1) N
        have hdm4 := Nat.div_add_mod (num - 4 * N * (num / (4 * N))) N
        have hlt : (num - 4 * N * (num / (4 * N)) + N - 1) % N < N := Nat.mod_lt _ hN
        have hlt2 : (num - 4 * N * (num / (4 * N))) % N < N := Nat.mod_lt _ hN
        -- ⌈r/N⌉*N ≥ r
        rcases Nat.lt_or_ge ((num - 4 * N * (num / (4 * N))) % N) 1 with hc | hc
        · omega
        · omega
      rw [show N * ((num - 4 * N * (num / (4 * N)) + N - 1) / N) =
          (num - 4 * N * (num / (4 * N))) +
            (N * ((num - 4 * N * (num / (4 * N)) + N - 1) / N) -
              (num - 4 * N * (num / (4 * N)))) from by omega,
        dotSlice_add]
      have hz : dotSlice
          (fun y => if y < num - 4 * N * (num / (4 * N)) then
            vec (4 * N * (num / (4 * N)) + y) else 0)
          (0 + (num - 4 * N * (num / (4 * N))))
          (fun y => if y < num - 4 * N * (num / (4 * N)) then
            vec (4 * N * (num / (4 * N)) + y) else 0)
          (0 + (num - 4 * N * (num / (4 * N))))
          (N * ((num - 4 * N * (num / (4 * N)) + N - 1) / N) -
            (num - 4 * N * (num / (4 * N)))) = 0 := by
        unfold dotSlice
        refine Finset.sum_eq_zero ?_
        intro j _
        have hj : ¬ (0 + (num - 4 * N * (num / (4 * N))) + j <
            num - 4 * N * (num / (4 * N))) := by omega
        simp only [hj, if_false]
        ring
      rw [hz, add_zero]
      unfold dotSlice
      refine Finset.sum_congr rfl ?_
      intro j hj0
      have hjr : j < num - 4 * N * (num / (4 * N)) := Finset.mem_range.mp hj0
      simp only [Nat.zero_add, if_pos hjr]
    rw [hpadSlice, ht]
    have hsplit := dotSlice_add vec 0 vec 0 (4 * N * (num / (4 * N)))
      (num - 4 * N * (num / (4 * N)))
    rw [show 4 * N * (num / (4 * N)) + (num - 4 * N * (num / (4 * N))) = num from by omega,
      Nat.zero_add] at hsplit
    rw [← hsplit, hsum]
  · rw [if_neg h0, hs, Option.map_some']
    congr 1
    rw [ht, ← hsum]
    congr 1
    omega

/-- Witness for C9 at `N = 4`, `vec i = i`, `num = 6` (one tail vector):
`Σ_{i<6} i² = 55`. -/
theorem decompressAndCallSingle_self_dot_witness :
    (0 : Nat) < 4 ∧
    decompressAndCallSingle 4 (fun i => (i : ℚ)) 6 =
      some (∑ j in Finset.range 6, (j : ℚ) * (j : ℚ)) :=
  ⟨by decide, decompressAndCallSingle_self_dot 4 (by decide) (fun i => (i : ℚ)) 6⟩

/-! ## NUQ components (compression/nuq-inl.h — NOT under `src/`; modelled from
the spec, and exercised by `compression/nuq_test.cc` which is under `src/`) -/

/-- `NuqStream::kClusters = 16` (spec §3; `nuq_test.cc` line 52). -/
def kClusters : Nat := 16

/-- `NuqStream::kGroupSize = 256` (spec §3; asserted by
`static_assert(kGroupSize == 256)` in `nuq_test.cc`). -/
def kGroupSize : Nat := 256

/-- Modelled from the spec: `NibbleCodec::OrderedPackU16` (§4.1;
`compression/nuq-inl.h` is not under `src/`).  Four `n`-lane vectors of
values masked to `[0,15]` pack into a `2n`-byte vector: lower-half byte `i`
holds `v0[i] | (v1[i] << 4)`, upper-half byte `i` holds `v2[i] | (v3[i] << 4)`. -/
def OrderedPackU16 (n : Nat) (v0 v1 v2 v3 : Nat → Nat) : Nat → Nat :=
  fun i => if i < n then v0 i % 16 + 16 * (v1 i % 16)
    else v2 (i - n) % 16 + 16 * (v3 (i - n) % 16)

/-- Modelled from the spec: `NibbleCodec::OrderedUnpackU16<k>` (§4.1) extracts
the `k`-th nibble set (`k ∈ {0,1}`) of a half-width byte vector. -/
def OrderedUnpackU16 (k : Nat) (bytes : Nat → Nat) : Nat → Nat :=
  fun i => if k = 0 then bytes i % 16 else bytes i / 16 % 16

/-- `hn::LowerHalf` of a `2n`-byte vector. -/
def lowerHalf (bytes : Nat → Nat) : Nat → Nat := bytes

/-- `hn::UpperHalf` of a `2n`-byte vector. -/
def upperHalf (n : Nat) (bytes : Nat → Nat) : Nat → Nat := fun i => bytes (n + i)

/-- C6: for lane-vectors with lanes in `[0,15]`, unpacking the byte vector
produced by `OrderedPackU16(v0..v3)` — via `OrderedUnpackU16<0>` and
`OrderedUnpackU16<1>` on its lower and upper halves — recovers each `vi`
exactly, lane for lane (`nuq_test.cc` lines 280–326). -/
theorem nibble_roundtrip (n : Nat) (v0 v1 v2 v3 : Nat → Nat) (i : Nat) (hi : i < n)
    (h0 : v0 i < 16) (h1 : v1 i < 16) (h2 : v2 i < 16) (h3 : v3 i < 16) :
    OrderedUnpackU16 0 (lowerHalf (OrderedPackU16 n v0 v1 v2 v3)) i = v0 i ∧
    OrderedUnpackU16 1 (lowerHalf (OrderedPackU16 n v0 v1 v2 v3)) i = v1 i ∧
    OrderedUnpackU16 0 (upperHalf n (OrderedPackU16 n v0 v1 v2 v3)) i = v2 i ∧
    OrderedUnpackU16 1 (upperHalf n (OrderedPackU16 n v0 v1 v2 v3)) i = v3 i := by
  have hmod : ∀ a b : Nat, a < 16 → b < 16 → (a % 16 + 16 * (b % 16)) % 16 = a := by
    intro a b ha hb
    rw [Nat.mod_eq_of_lt ha, Nat.mod_eq_of_lt hb, Nat.add_mul_mod_self_left,
      Nat.mod_eq_of_lt ha]
  have hdiv : ∀ a b : Nat, a < 16 → b < 16 → (a % 16 + 16 * (b % 16)) / 16 % 16 = b := by
    intro a b ha hb
    rw [Nat.mod_eq_of_lt ha, Nat.mod_eq_of_lt hb, Nat.add_mul_div_left _ _ (by norm_num),
      Nat.div_eq_of_lt ha, Nat.zero_add, Nat.mod_eq_of_lt hb]
  refine ⟨?_, ?_, ?_, ?_⟩
  · simp only [OrderedUnpackU16, lowerHalf, OrderedPackU16, if_pos rfl, if_pos hi]
    exact hmod _ _ h0 h1
  · simp only [OrderedUnpackU16, lowerHalf, OrderedPackU16, if_pos hi]
    rw [if_neg (by omega)]
    exact hdiv _ _ h0 h1
  · simp only [OrderedUnpackU16, upperHalf, OrderedPackU16, if_pos rfl]
    rw [if_neg (show ¬ n + i < n by omega), Nat.add_sub_cancel_left]
    exact hmod _ _ h2 h3
  · simp only [OrderedUnpackU16, upperHalf, OrderedPackU16]
    rw [if_neg (by omega), if_neg (show ¬ n + i < n by omega), Nat.add_sub_cancel_left]
    exact hdiv _ _ h2 h3

/-- Witness for C6 at `n = 4`, lane `i = 2`, `v0..v3 = (iota & 15, 1, odd/even
of 1/0, reverse iota)`-style concrete values. -/
theorem nibble_roundtrip_witness :
    (2 : Nat) < 4 ∧ (5 : Nat) < 16 ∧ (1 : Nat) < 16 ∧ (0 : Nat) < 16 ∧ (9 : Nat) < 16 ∧
    (OrderedUnpackU16 0 (lowerHalf (OrderedPackU16 4 (fun i => i + 3) (fun _ => 1)
        (fun i => i % 2) (fun i => 11 - i))) 2 = (fun i => i + 3) 2 ∧
      OrderedUnpackU16 1 (lowerHalf (OrderedPackU16 4 (fun i => i + 3) (fun _ => 1)
        (fun i => i % 2) (fun i => 11 - i))) 2 = (fun _ : Nat => 1) 2 ∧
      OrderedUnpackU16 0 (upperHalf 4 (OrderedPackU16 4 (fun i => i + 3) (fun _ => 1)
        (fun i => i % 2) (fun i => 11 - i))) 2 = (fun i => i % 2) 2 ∧
      OrderedUnpackU16 1 (upperHalf 4 (OrderedPackU16 4 (fun i => i + 3) (fun _ => 1)
        (fun i => i % 2) (fun i => 11 - i))) 2 = (fun i : Nat => 11 - i) 2) :=
  ⟨by decide, by decide, by decide, by decide, by decide,
    nibble_roundtrip 4 (fun i => i + 3) (fun _ => 1) (fun i => i % 2) (fun i => 11 - i) 2
      (by decide) (by decide) (by decide) (by decide) (by decide)⟩

/-- Result of `NuqClustering::ClusterExactL2` (spec §4.2): `kClusters` centers
(the first `unused_clusters` of them zero), one index per sample, and the
unused-cluster count. -/
structure ClusterResult where
  unused_clusters : Nat
  centers : Nat → ℚ
  indices : List Nat

/-- Sum of `s[a..b)`. -/
def intervalSum (s : List ℚ) (a b : Nat) : ℚ := ((s.drop a).take (b - a)).sum

/-- Sum of squares of `s[a..b)`. -/
def intervalSum2 (s : List ℚ) (a b : Nat) : ℚ :=
  (((s.drop a).take (b - a)).map (fun x => x * x)).sum

/-- SSE of the optimal (mean) center of `s[a..b)`: `Σx² − (Σx)²/(b−a)`
(spec §4.2). -/
def intervalCost (s : List ℚ) (a b : Nat) : ℚ :=
  intervalSum2 s a b - intervalSum s a b * intervalSum s a b / ((b : ℚ) - (a : ℚ))

/-- Mean of `s[a..b)`. -/
def intervalMean (s : List ℚ) (a b : Nat) : ℚ :=
  intervalSum s a b / ((b : ℚ) - (a : ℚ))

/-- Modelled from the spec: the exact 1-D k-means dynamic program (§4.2) over
a sorted list — `bestPartition s k b` minimizes total SSE of partitioning
`s[0..b)` into `k+1` contiguous intervals, returning the cost and the `k`
interior boundaries (ascending). -/
def bestPartition (s : List ℚ) : Nat → Nat → ℚ × List Nat
  | 0, b => (intervalCost s 0 b, [])
  | k + 1, b =>
    let base := bestPartition s k (b - 1)
    (((List.range b).filterMap (fun t =>
      if k + 1 ≤ t then
        let prev := bestPartition s k t
        some (prev.1 + intervalCost s t b, prev.2 ++ [t])
      else none)).foldl
      (fun best c => if c.1 < best.1 then c else best)
      (base.1 + intervalCost s (b - 1) b, base.2 ++ [b - 1]))

/-- Modelled from the spec: `NuqClustering::ClusterExactL2` (§4.2;
`compression/nuq-inl.h` is not under `src/`).  Sort the samples; when at most
`kClusters` distinct values exist, `used = distinct_count`, each distinct
value is its own (zero-SSE, mean = value) cluster, unused clusters occupy the
lowest center slots with value `0`, and indices lie in `[unused, 16)`;
otherwise run the exact interval DP and assign each sample the first interval
whose last sorted element is ≥ it. -/
def ClusterExactL2 (inp : List ℚ) : ClusterResult :=
  let sorted := List.insertionSort (· ≤ ·) inp
  let distinct := sorted.dedup
  if distinct.length ≤ kClusters then
    { unused_clusters := kClusters - distinct.length
      centers := fun i => if i < kClusters - distinct.length then 0
        else distinct.getD (i - (kClusters - distinct.length)) 0
      indices := inp.map (fun x => kClusters - distinct.length + distinct.indexOf x) }
  else
    let n := sorted.length
    let bp := bestPartition sorted (kClusters - 1) n
    let bounds := bp.2 ++ [n]
    let starts := 0 :: bp.2
    { unused_clusters := 0
      centers := fun i => if i < kClusters then
        intervalMean sorted (starts.getD i 0) (bounds.getD i n) else 0
      indices := inp.map (fun x =>
        (List.range kClusters).findIdx (fun j => decide (x ≤ sorted.getD (bounds.getD j n - 1) 0))) }

/-- `dedup` of a nonempty constant list is the singleton. -/
theorem dedup_replicate_pos (c : ℚ) : ∀ n, 0 < n → (List.replicate n c).dedup = [c] := by
  intro n
  induction n with
  | zero => intro h; omega
  | succ n ih =>
    intro _
    rw [List.replicate_succ]
    by_cases hn : n = 0
    · subst hn
      rfl
    · rw [List.dedup_cons_of_mem (List.mem_replicate.mpr ⟨hn, rfl⟩)]
      exact ih (by omega)

/-- Sorting a constant list is the identity. -/
theorem insertionSort_replicate (c : ℚ) (n : Nat) :
    List.insertionSort (· ≤ ·) (List.replicate n c) = List.replicate n c := by
  have hperm := List.perm_insertionSort (· ≤ ·) (List.replicate n c)
  refine List.eq_replicate_iff.mpr ⟨?_, ?_⟩
  · rw [hperm.length_eq, List.length_replicate]
  · intro b hb
    exact List.eq_of_mem_replicate (hperm.mem_iff.mp hb)

/-- C7: `ClusterExactL2` on the 256-sample constant input `[c, c, …, c]`
returns `unused_clusters = 15`, `centers[i] = 0` for `i < 15`, the single used
center `centers[15] = c`, and all 256 indices equal to 15
(`nuq_test.cc` lines 56–84). -/
theorem clusterExactL2_flat (c : ℚ) :
    (ClusterExactL2 (List.replicate kGroupSize c)).unused_clusters = 15 ∧
    (∀ i, i < 15 → (ClusterExactL2 (List.replicate kGroupSize c)).centers i = 0) ∧
    (ClusterExactL2 (List.replicate kGroupSize c)).centers 15 = c ∧
    (ClusterExactL2 (List.replicate kGroupSize c)).indices = List.replicate kGroupSize 15 := by
  have hsorted := insertionSort_replicate c kGroupSize
  have hdedup : (List.replicate kGroupSize c).dedup = [c] :=
    dedup_replicate_pos c kGroupSize (by norm_num [kGroupSize])
  have hres : ClusterExactL2 (List.replicate kGroupSize c) =
      { unused_clusters := kClusters - 1
        centers := fun i => if i < kClusters - 1 then 0
          else [c].getD (i - (kClusters - 1)) 0
        indices := (List.replicate kGroupSize c).map
          (fun x => kClusters - 1 + [c].indexOf x) } := by
    simp only [ClusterExactL2]
    rw [hsorted, hdedup]
    rw [if_pos (by norm_num [kClusters])]
    rfl
  rw [hres]
  refine ⟨by norm_num [kClusters], ?_, ?_, ?_⟩
  · intro i hi
    show (if i < kClusters - 1 then (0 : ℚ) else _) = 0
    rw [if_pos (by norm_num [kClusters]; omega)]
  · show (if 15 < kClusters - 1 then (0 : ℚ) else [c].getD (15 - (kClusters - 1)) 0) = c
    rw [if_neg (by norm_num [kClusters])]
    norm_num [kClusters]
  · have hidx : kClusters - 1 + [c].indexOf c = 15 := by
      rw [List.indexOf_cons_self]
      norm_num [kClusters]
    rw [List.map_replicate, hidx]

/-- Witness for C7 at `c = 1/2` (the test's `0.5f`), center slot `i = 3`. -/
theorem clusterExactL2_flat_witness :
    (ClusterExactL2 (List.replicate kGroupSize (1/2 : ℚ))).unused_clusters = 15 ∧
    (3 : Nat) < 15 ∧
    (ClusterExactL2 (List.replicate kGroupSize (1/2 : ℚ))).centers 3 = 0 ∧
    (ClusterExactL2 (List.replicate kGroupSize (1/2 : ℚ))).centers 15 = 1/2 ∧
    (ClusterExactL2 (List.replicate kGroupSize (1/2 : ℚ))).indices =
      List.replicate kGroupSize 15 :=
  ⟨(clusterExactL2_flat (1/2)).1, by decide,
    (clusterExactL2_flat (1/2)).2.1 3 (by decide),
    (clusterExactL2_flat (1/2)).2.2.1, (clusterExactL2_flat (1/2)).2.2.2⟩

/-- One encoded NUQ group (spec §3): 16 centers (stored as BF16 on disk — the
storage rounding is the abstract `store` parameter of `encGroup`) plus one
4-bit index per sample.  The packed stream is modelled at group granularity:
one `NuqGroup` per `(16 BF16 centers + 128 nibble bytes)` block. -/
structure NuqGroup where
  centers : Nat → ℚ
  indices : Nat → Nat

/-- Modelled from the spec: per-group NUQ encoding (§4.3) — cluster the 256
samples via `ClusterExactL2` and write the (rounded) centers and indices. -/
def encGroup (store : ℚ → ℚ) (xs : List ℚ) : NuqGroup :=
  { centers := fun i => store ((ClusterExactL2 xs).centers i)
    indices := fun j => (ClusterExactL2 xs).indices.getD j 0 }

/-- Modelled from the spec: `NuqCodec::Enc(df, raw, num, buf, packed, ofs)`
(§4.3; `ofs`, `num` group-aligned): destination group `ofs/256 + g`, for
`g < ⌈num/256⌉`, receives the encoding of raw samples `[g·256, (g+1)·256)`;
other groups are untouched. -/
def nuqEnc (store : ℚ → ℚ) (raw : Nat → ℚ) (num : Nat) (packed : Nat → NuqGroup)
    (ofs : Nat) : Nat → NuqGroup :=
  fun g =>
    if ofs / kGroupSize ≤ g ∧
        g < ofs / kGroupSize + (num + kGroupSize - 1) / kGroupSize then
      encGroup store (List.ofFn (fun j : Fin kGroupSize =>
        raw (kGroupSize * (g - ofs / kGroupSize) + j)))
    else packed g

/-- Modelled from the spec: element `i` of NUQ `DecompressAndZeroPad` at
logical offset `ofs` (§4.3): locate the group, look its center table up by the
sample's index, convert to the target type (`convert`: identity for f32, BF16
rounding for BF16 — the claim requires only that both decodes use the same
target). -/
def nuqDec (convert : ℚ → ℚ) (packed : Nat → NuqGroup) (ofs i : Nat) : ℚ :=
  convert ((packed ((ofs + i) / kGroupSize)).centers
    ((packed ((ofs + i) / kGroupSize)).indices ((ofs + i) % kGroupSize)))

/-- C4: NUQ encode is sub-region idempotent (the `TestOffset` scenario,
`nuq_test.cc` lines 239–275): after encoding a 10-group input and decoding it
to `A`, re-encoding the first 2 groups of the same input at logical offset
`5·kGroupSize` and decoding that 2-group sub-range yields `B` with
`B[i] = A[i]` bit-exactly for `i < 2·kGroupSize` (same decode target), and
groups outside `[5, 7)` are unaffected. -/
theorem nuq_subregion_idempotent (inp : Nat → ℚ) (store convert : ℚ → ℚ)
    (packed0 : Nat → NuqGroup) :
    (∀ i, i < 2 * kGroupSize →
      nuqDec convert
        (nuqEnc store inp (2 * kGroupSize) (nuqEnc store inp (10 * kGroupSize) packed0 0)
          (5 * kGroupSize))
        (5 * kGroupSize) i =
      nuqDec convert (nuqEnc store inp (10 * kGroupSize) packed0 0) 0 i) ∧
    (∀ g, g < 5 ∨ 7 ≤ g →
      nuqEnc store inp (2 * kGroupSize) (nuqEnc store inp (10 * kGroupSize) packed0 0)
        (5 * kGroupSize) g =
      nuqEnc store inp (10 * kGroupSize) packed0 0 g) := by
  constructor
  · intro i hi
    unfold nuqDec nuqEnc
    simp only [kGroupSize] at hi ⊢
    have hd : (5 * 256 + i) / 256 = 5 + i / 256 := by omega
    have hm : (5 * 256 + i) % 256 = i % 256 := by omega
    have hz : (0 + i) / 256 = i / 256 := by omega
    have hmz : (0 + i) % 256 = i % 256 := by omega
    rw [hd, hm, hz, hmz]
    rw [if_pos (show (5 * 256) / 256 ≤ 5 + i / 256 ∧
        5 + i / 256 < (5 * 256) / 256 + (2 * 256 + 256 - 1) / 256 by omega)]
    rw [if_pos (show 0 / 256 ≤ i / 256 ∧
        i / 256 < 0 / 256 + (10 * 256 + 256 - 1) / 256 by omega)]
    have hslice : (List.ofFn (fun j : Fin 256 =>
        inp (256 * (5 + i / 256 - (5 * 256) / 256) + j))) =
        (List.ofFn (fun j : Fin 256 => inp (256 * (i / 256 - 0 / 256) + j))) := by
      congr 1
      funext j
      congr 1
      omega
    rw [hslice]
  · intro g hg
    unfold nuqEnc
    simp only [kGroupSize]
    rw [if_neg (show ¬ ((5 * 256) / 256 ≤ g ∧
        g < (5 * 256) / 256 + (2 * 256 + 256 - 1) / 256) by omega)]

/-- Witness for C4 at `inp i = i`, identity `store`/`convert`, zero initial
packed stream, decoded element `i = 5` and untouched group `g = 3`. -/
theorem nuq_subregion_idempotent_witness :
    (5 : Nat) < 2 * kGroupSize ∧ ((3 : Nat) < 5 ∨ (7 : Nat) ≤ 3) ∧
    (nuqDec (fun x => x)
        (nuqEnc (fun x => x) (fun i => (i : ℚ)) (2 * kGroupSize)
          (nuqEnc (fun x => x) (fun i => (i : ℚ)) (10 * kGroupSize)
            (fun _ => ⟨fun _ => 0, fun _ => 0⟩) 0)
          (5 * kGroupSize))
        (5 * kGroupSize) 5 =
      nuqDec (fun x => x)
        (nuqEnc (fun x => x) (fun i => (i : ℚ)) (10 * kGroupSize)
          (fun _ => ⟨fun _ => 0, fun _ => 0⟩) 0) 0 5) ∧
    (nuqEnc (fun x => x) (fun i => (i : ℚ)) (2 * kGroupSize)
        (nuqEnc (fun x => x) (fun i => (i : ℚ)) (10 * kGroupSize)
          (fun _ => ⟨fun _ => 0, fun _ => 0⟩) 0)
        (5 * kGroupSize) 3 =
      nuqEnc (fun x => x) (fun i => (i : ℚ)) (10 * kGroupSize)
        (fun _ => ⟨fun _ => 0, fun _ => 0⟩) 0 3) :=
  ⟨by decide, Or.inl (by decide),
    (nuq_subregion_idempotent (fun i => (i : ℚ)) (fun x => x) (fun x => x)
      (fun _ => ⟨fun _ => 0, fun _ => 0⟩)).1 5 (by decide),
    (nuq_subregion_idempotent (fun i => (i : ℚ)) (fun x => x) (fun x => x)
      (fun _ => ⟨fun _ => 0, fun _ => 0⟩)).2 3 (Or.inl (by decide))⟩

end Gemma
